import Mathlib

/-!
# gmbackup: the reconcile loop of `main` and `downloadMessage`

A shallow embedding of `src/main.go`, lines 132-195 (`readdir`,
`downloadMessage`) and lines 267-329 (the page loop and the deletion sweep of
`main`).

* The directory `outputPath` is an association list from entry name to file;
  a Go map is an association list with unique keys. The files the run puts at
  paths that are not entries of `outputPath` are kept in a second list, by
  cleaned path. Paths are lexical, as `filepath.Join` computes them (Unix
  separator, no symbolic links).
* The Gmail service is a pair of functions: `list` answers a
  `Users.Messages.List` request for a page token (`""` is the request without
  a token), `get` answers `Users.Messages.Get(user, id).Format("raw")`.
* What the operating system does during the n-th call of `downloadMessage`
  (the random part of the temporary name, the clock, which system call fails)
  is read from a script indexed by n.
* `log.Fatalf` and `return` end the run: the loops return `Except`, whose
  error side carries how the run ended and the state at that point.
* `verbose` only writes log lines, which are not modelled.
* `processed` is an `int64` that grows by one per message; it is a `Nat` here
  (2^63 messages are out of reach).
-/

namespace Gmbackup

/-! ## Data model -/

/-- Raw bytes, each below 256. -/
abbrev Bytes := List Nat

/-- A regular file: content, permission bits and modification time in
nanoseconds since the Unix epoch (the unit of the `utimensat` call behind
`os.Chtimes`). -/
structure File where
  content : Bytes
  mode : Nat
  mtime : Int
deriving DecidableEq, Repr

/-- Lookup in a string-keyed map, `m[k]` with `none` for a missing key. -/
def mapGet {α : Type} (m : List (String × α)) (k : String) : Option α :=
  List.lookup k m

/-- Removal of a key from a string-keyed map. -/
def mapDelete {α : Type} (m : List (String × α)) (k : String) : List (String × α) :=
  m.filter (fun p => p.1 != k)

/-- Assignment `m[k] = v`. -/
def mapSet {α : Type} (m : List (String × α)) (k : String) (v : α) : List (String × α) :=
  (k, v) :: mapDelete m k

/-- The keys of a string-keyed map. -/
def mapKeys {α : Type} (m : List (String × α)) : List String :=
  m.map Prod.fst

/-- The content of the directory `outputPath`, by file name. -/
abbrev Dir := List (String × File)

/-- The part of `os.FileInfo` that `Readdir` reports for one entry. -/
structure FileInfo where
  name : String
  size : Nat
  mode : Nat
  modTime : Int
deriving DecidableEq, Repr

/-- The `map[string]os.FileInfo` built by `readdir`. -/
abbrev FileMap := List (String × FileInfo)

/-- A `gmail.Message` in raw format: base64url payload and internal date in
epoch milliseconds, an `int64`. -/
structure Message where
  Raw : String
  InternalDate : Int
deriving DecidableEq, Repr

/-- A `gmail.ListMessagesResponse`: the `Id` of each entry of `Messages`, in
the order returned, and `NextPageToken`. -/
structure ListMessagesResponse where
  Messages : List String
  NextPageToken : String
deriving DecidableEq, Repr

/-- The command line flags read by the reconcile loop. -/
structure Flags where
  delete : Bool
  dryRun : Bool
  verbose : Bool
  incremental : Bool
deriving DecidableEq, Repr

/-- What the operating system does during one call of `downloadMessage`. -/
structure OsScript where
  /-- the random string `os.CreateTemp` appends to the pattern -/
  random : String
  /-- the wall clock, in epoch nanoseconds -/
  now : Int
  createTemp : Option String
  /-- a failing `Write`: the number of bytes written before the failure -/
  write : Option (Nat × String)
  chmod : Option String
  chtimes : Option String
  rename : Option String
  close : Option String

/-- The world around one run. -/
structure Env where
  /-- the destination directory, as given to `readdir` and `downloadMessage` -/
  outputPath : String
  /-- `svc.Users.Messages.List(user).MaxResults(500).Q("-in:CHAT")` with the
  given page token -/
  list : String → Except String ListMessagesResponse
  /-- `svc.Users.Messages.Get(user, id).Format("raw").Do()` -/
  get : String → Except String Message
  /-- the operating system during the n-th call of `downloadMessage` -/
  os : Nat → OsScript
  /-- a failing `os.Remove` of the given name -/
  removeErr : String → Option String
  /-- a failing `os.Open` or `Readdir` of the output directory -/
  readdirErr : Option String

/-- The step at which `downloadMessage` returned its error. -/
inductive DlError
  | get (e : String)
  | decode (e : String)
  | createTemp (e : String)
  | write (e : String)
  | chmod (e : String)
  | chtimes (e : String)
  | rename (e : String)
  | close (e : String)
deriving DecidableEq, Repr

/-- A request to the mail service or a file removal, as performed. -/
inductive Call
  | list (pageToken : String)
  | get (id : String)
  | remove (name : String)
deriving DecidableEq, Repr

/-- How a run ended. -/
inductive Outcome
  /-- `main` reached its end (line 330) -/
  | finished
  /-- the `return` of line 299 -/
  | stoppedEarly
  /-- `log.Fatalf` of line 269 -/
  | fatalReaddir (e : String)
  /-- `log.Fatalf` of line 282 -/
  | fatalList (pageToken : String) (e : String)
  /-- `log.Fatalf` of line 295 -/
  | fatalDownload (id : String) (e : DlError)
  /-- `log.Fatalf` of line 324 -/
  | fatalRemove (name : String) (e : String)
  /-- the page loop did not end within the fuel given -/
  | outOfFuel
deriving DecidableEq, Repr

/-- The state of a run: the entries of the output directory, the files the run
has put at other paths, `remoteMails`, `processed`, the calls made so far
(oldest first) and the number of `downloadMessage` calls. -/
structure State where
  dir : Dir
  outside : Dir
  remoteMails : List String
  processed : Nat
  calls : List Call
  downloads : Nat
deriving DecidableEq, Repr

/-! ## base64url -/

/-- The value of a character in the URL-safe base64 alphabet. -/
def b64Value (c : Char) : Option Nat :=
  let n := c.toNat
  if 65 ≤ n ∧ n ≤ 90 then some (n - 65)
  else if 97 ≤ n ∧ n ≤ 122 then some (n - 97 + 26)
  else if 48 ≤ n ∧ n ≤ 57 then some (n - 48 + 52)
  else if c = '-' then some 62
  else if c = '_' then some 63
  else none

/-- Decoding of padded quanta of four characters. -/
def decodeQuanta : List Char → Except String Bytes
  | [] => .ok []
  | [a, b, '=', '='] =>
    match b64Value a, b64Value b with
    | some x, some y => .ok [(x * 64 + y) / 16 % 256]
    | _, _ => .error "illegal base64 data"
  | [a, b, c, '='] =>
    match b64Value a, b64Value b, b64Value c with
    | some x, some y, some z =>
      let n := (x * 64 + y) * 64 + z
      .ok [n / 1024 % 256, n / 4 % 256]
    | _, _, _ => .error "illegal base64 data"
  | a :: b :: c :: d :: rest =>
    match b64Value a, b64Value b, b64Value c, b64Value d with
    | some x, some y, some z, some w =>
      let n := ((x * 64 + y) * 64 + z) * 64 + w
      match decodeQuanta rest with
      | .ok bs => .ok (n / 65536 % 256 :: n / 256 % 256 :: n % 256 :: bs)
      | .error e => .error e
    | _, _, _, _ => .error "illegal base64 data"
  | _ => .error "illegal base64 data"

/-- The library call `base64.URLEncoding.DecodeString`: padded URL-safe
base64, carriage returns and new lines ignored. -/
def base64URLDecode (s : String) : Except String Bytes :=
  decodeQuanta (s.data.filter (fun c => c != '\n' && c != '\r'))

/-! ## Paths and times of the standard library -/

/-- The elements of a path between its separators, the current element being
accumulated in reverse. -/
def splitAux : List Char → List Char → List (List Char)
  | [], cur => [cur.reverse]
  | c :: cs, cur => if c = '/' then cur.reverse :: splitAux cs [] else splitAux cs (c :: cur)

/-- One element in `filepath.Clean`: empty and `.` elements are dropped, `..`
removes the element before it, is dropped at the root and is kept at the start
of a path that is not rooted. `stack` holds the elements kept, last first. -/
def cleanStep (rooted : Bool) (stack : List (List Char)) (elem : List Char) :
    List (List Char) :=
  if elem = [] ∨ elem = ['.'] then stack
  else if elem = ['.', '.'] then
    match stack with
    | top :: rest => if top = ['.', '.'] then elem :: stack else rest
    | [] => if rooted then [] else [elem]
  else elem :: stack

/-- The elements of `filepath.Clean(path)`, last first. -/
def cleanElems (path : List Char) : List (List Char) :=
  (splitAux path []).foldl (cleanStep (path.head? = some '/')) []

/-- The library call `filepath.Clean` (Unix). -/
def Clean (path : String) : String :=
  let body := String.mk (List.intercalate ['/'] (cleanElems path.data).reverse)
  if path.data.head? = some '/' then "/" ++ body
  else if body = "" then "." else body

/-- The library call `filepath.Join` on two elements: empty leading elements
are ignored and the result is cleaned. -/
def Join (a b : String) : String :=
  if a ≠ "" then Clean (a ++ "/" ++ b) else if b ≠ "" then Clean b else ""

/-- Where `filepath.Join(outputPath, id)` lies: it is the entry `name` of the
directory `outputPath`, or a directory that exists (`outputPath` itself, one of
the directories above it, the root or the working directory), or another
path. -/
inductive Landing
  | entry (name : String)
  | directory
  | elsewhere (path : String)
deriving DecidableEq, Repr

/-- The place of `filepath.Join(outputPath, id)`. With an empty `outputPath`
the temporary file is in the directory of `os.TempDir` and the final path is
relative to the working directory. -/
def landing (outputPath id : String) : Landing :=
  if outputPath = "" then .elsewhere (Join outputPath id)
  else
    let base := cleanElems outputPath.data
    let p := cleanElems (outputPath ++ "/" ++ id).data
    if p.isSuffixOf base then .directory
    else match p with
      | name :: rest =>
        if rest = base ∧ name ≠ ['.', '.'] then .entry (String.mk name)
        else .elsewhere (Join outputPath id)
      | [] => .directory

/-- An integer wrapped into the range of `int64`. -/
def wrapInt64 (x : Int) : Int :=
  (x + 2 ^ 63) % 2 ^ 64 - 2 ^ 63

/-- The milliseconds `msec` for which `time.UnixMilli(msec)` is the zero
`Time`, January 1 of year 1. -/
def zeroTimeMilli : Int := -62135596800000

/-- The modification time after `os.Chtimes(name, time.Time{}, time.UnixMilli(msec))`
on a file whose modification time was `old`: a zero `Time` leaves the time as
it is, any other `Time` sets it to `UnixNano()`, the nanoseconds since the
epoch in `int64` arithmetic. This is the time handed to the system call; the
rounding or clamping of a particular file system is not modelled. -/
def chtimesMtime (msec : Int) (old : Int) : Int :=
  if msec = zeroTimeMilli then old else wrapInt64 (msec * 1000000)

/-- The call `os.Rename(temp, filepath.Join(outputPath, id))` when the system
call is not made to fail by the script: onto a directory it fails (`none`),
onto an entry of `outputPath` it replaces that entry, onto another path the
file leaves the directory. -/
def renameTo (dir outside : Dir) (temp : String) (f : File) : Landing → Option (Dir × Dir)
  | .directory => none
  | .entry name => some (mapSet (mapDelete dir temp) name f, outside)
  | .elsewhere path => some (mapDelete dir temp, mapSet outside path f)

/-- The file at `filepath.Join(outputPath, id)`. -/
def finalFile (outputPath id : String) (dir outside : Dir) : Option File :=
  match landing outputPath id with
  | .entry name => mapGet dir name
  | .elsewhere path => mapGet outside path
  | .directory => none

/-! ## readdir and downloadMessage -/

/-- The entry `Readdir` reports for a file. -/
def fileInfo (name : String) (f : File) : FileInfo :=
  { name := name, size := f.content.length, mode := f.mode, modTime := f.mtime }

/-- Lines 132-149. -/
def readdir (err : Option String) (dir : Dir) : Except String FileMap :=
  match err with
  | some e => .error e
  | none =>
    let files := dir.map (fun p => fileInfo p.1 p.2)
    .ok (files.foldl (fun fileMap v => mapSet fileMap v.name v) [])

/-- The name `os.CreateTemp(outputPath, "gmbackup")` tries. -/
def tempName (os : OsScript) : String :=
  "gmbackup" ++ os.random

/-- Lines 151-195, on the entries `dir` of the directory `outputPath` and the
files `outside` it. `os.CreateTemp` creates the file exclusively, so a name
that exists is never taken: its retries with a fresh random string are left to
the script, and a script that proposes an existing name stands for the call
giving up. A failing `Write` leaves the bytes written so far; a failing
`Rename` leaves both names as they were. -/
def downloadMessage (env : Env) (os : OsScript) (id : String) (dir outside : Dir) :
    Option DlError × Dir × Dir :=
  match env.get id with
  | .error e => (some (.get e), dir, outside)
  | .ok msg =>
  match base64URLDecode msg.Raw with
  | .error e => (some (.decode e), dir, outside)
  | .ok raw =>
  match os.createTemp with
  | some e => (some (.createTemp e), dir, outside)
  | none =>
  if (mapGet dir (tempName os)).isSome then
    (some (.createTemp "file exists"), dir, outside)
  else
  let name := tempName os
  let f0 : File := { content := [], mode := 0o600, mtime := os.now }
  match os.write with
  | some (n, e) =>
    (some (.write e), mapSet dir name { f0 with content := raw.take n }, outside)
  | none =>
  let f1 : File := { f0 with content := raw }
  match os.chmod with
  | some e => (some (.chmod e), mapSet dir name f1, outside)
  | none =>
  let f2 : File := { f1 with mode := 0o400 }
  match os.chtimes with
  | some e => (some (.chtimes e), mapSet dir name f2, outside)
  | none =>
  let f3 : File := { f2 with mtime := chtimesMtime msg.InternalDate f2.mtime }
  match os.rename with
  | some e => (some (.rename e), mapSet dir name f3, outside)
  | none =>
  match renameTo dir outside name f3 (landing env.outputPath id) with
  | none => (some (.rename "file exists"), mapSet dir name f3, outside)
  | some (dir', outside') =>
  match os.close with
  | some e => (some (.close e), dir', outside')
  | none => (none, dir', outside')

/-! ## The reconcile loop of main -/

/-- The call `strings.HasPrefix(s, p)`. -/
def HasPrefix (s p : String) : Bool :=
  p.data.isPrefixOf s.data

/-- The assignment `remoteMails[id] = true`. -/
def markSeen (remoteMails : List String) (id : String) : List String :=
  if id ∈ remoteMails then remoteMails else id :: remoteMails

/-- The body of the loop over `r.Messages`, lines 286-302. -/
def processMessage (env : Env) (flags : Flags) (fileMap : FileMap) (id : String)
    (st : State) : Except (Outcome × State) State :=
  let st1 := { st with remoteMails := markSeen st.remoteMails id }
  if (mapGet fileMap id).isNone then
    if !flags.dryRun then
      let st2 := { st1 with calls := st1.calls ++ [Call.get id], downloads := st1.downloads + 1 }
      match downloadMessage env (env.os st1.downloads) id st1.dir st1.outside with
      | (some err, dir, outside) =>
        .error (.fatalDownload id err, { st2 with dir := dir, outside := outside })
      | (none, dir, outside) =>
        .ok { st2 with dir := dir, outside := outside, processed := st2.processed + 1 }
    else
      .ok { st1 with processed := st1.processed + 1 }
  else if flags.incremental then
    .error (.stoppedEarly, st1)
  else
    .ok { st1 with processed := st1.processed + 1 }

/-- The loop over `r.Messages`, lines 285-303. -/
def processMessages (env : Env) (flags : Flags) (fileMap : FileMap) :
    List String → State → Except (Outcome × State) State
  | [], st => .ok st
  | id :: ids, st =>
    match processMessage env flags fileMap id st with
    | .error r => .error r
    | .ok st' => processMessages env flags fileMap ids st'

/-- The page loop, lines 275-309; `fuel` bounds the number of pages. -/
def pageLoop (env : Env) (flags : Flags) (fileMap : FileMap) :
    Nat → String → State → Except (Outcome × State) State
  | 0, _, st => .error (.outOfFuel, st)
  | fuel + 1, pageToken, st =>
    let st := { st with calls := st.calls ++ [Call.list pageToken] }
    match env.list pageToken with
    | .error e => .error (.fatalList pageToken e, st)
    | .ok r =>
      match processMessages env flags fileMap r.Messages st with
      | .error res => .error res
      | .ok st' =>
        if r.NextPageToken = "" then .ok st'
        else pageLoop env flags fileMap fuel r.NextPageToken st'

/-- The loop over the keys of `fileMap`, lines 312-328, in the order of the
list given (Go leaves the order of a map range open). `os.Remove` of a name
that does not exist fails. -/
def sweep (env : Env) (flags : Flags) : List String → State → Except (Outcome × State) State
  | [], st => .ok st
  | k :: ks, st =>
    if !(decide (k ∈ st.remoteMails)) then
      if HasPrefix k "." then sweep env flags ks st
      else if !flags.dryRun then
        let st := { st with calls := st.calls ++ [Call.remove k] }
        match env.removeErr k with
        | some e => .error (.fatalRemove k e, st)
        | none =>
          if (mapGet st.dir k).isNone then
            .error (.fatalRemove k "no such file or directory", st)
          else sweep env flags ks { st with dir := mapDelete st.dir k }
      else sweep env flags ks st
    else sweep env flags ks st

/-- The state before the page loop, lines 272-274: `remoteMails` empty,
`processed` zero, nothing done yet. -/
def initState (dir : Dir) : State :=
  { dir := dir, outside := [], remoteMails := [], processed := 0, calls := [],
    downloads := 0 }

/-- Lines 267-329 of `main`: `readdir`, the page loop, the deletion sweep. -/
def main (env : Env) (flags : Flags) (dir : Dir) (fuel : Nat) : Outcome × State :=
  match readdir env.readdirErr dir with
  | .error e => (.fatalReaddir e, initState dir)
  | .ok fileMap =>
    match pageLoop env flags fileMap fuel "" (initState dir) with
    | .error res => res
    | .ok st =>
      if flags.delete then
        match sweep env flags (mapKeys fileMap) st with
        | .error res => res
        | .ok st' => (.finished, st')
      else (.finished, st)

/-! ## Vocabulary of the statements -/

/-- The pages of a listing: the pages followed by continuation token from
`pageToken`, up to and including the first page whose token is empty; `none`
when a request fails or the end is not reached within `fuel` pages. -/
def listedPages (list : String → Except String ListMessagesResponse) :
    Nat → String → Option (List ListMessagesResponse)
  | 0, _ => none
  | fuel + 1, pageToken =>
    match list pageToken with
    | .error _ => none
    | .ok r =>
      if r.NextPageToken = "" then some [r]
      else (listedPages list fuel r.NextPageToken).map (fun rs => r :: rs)

/-- The identifiers of a sequence of pages, concatenated in order. -/
def listedIds (pages : List ListMessagesResponse) : List String :=
  pages.flatMap (fun r => r.Messages)

/-- The identifiers requested from the mail service, in order. -/
def fetched (calls : List Call) : List String :=
  calls.filterMap (fun c => match c with | .get id => some id | _ => none)

/-- The names handed to `os.Remove`, in order. -/
def removed (calls : List Call) : List String :=
  calls.filterMap (fun c => match c with | .remove k => some k | _ => none)

/-- The page tokens requested, in order. -/
def requested (calls : List Call) : List String :=
  calls.filterMap (fun c => match c with | .list t => some t | _ => none)

/-! ## Sample worlds -/

/-- A listing given by its pages, keyed by the token that requests them. -/
def pagedList (pages : List (String × ListMessagesResponse)) :
    String → Except String ListMessagesResponse :=
  fun tok => match mapGet pages tok with
    | some r => .ok r
    | none => .error "invalid page token"

/-- An operating system that does not fail. -/
def okScript (n : Nat) : OsScript :=
  { random := String.mk (List.replicate (n + 1) '7'), now := 1700000000000000000,
    createTemp := none, write := none, chmod := none, chtimes := none,
    rename := none, close := none }

/-- A world with the given listing and the destination `/home/u/mail`, in which
every message is "hi", dated 1500000000000, and nothing fails. -/
def sampleEnv (pages : List (String × ListMessagesResponse)) : Env :=
  { outputPath := "/home/u/mail"
    list := pagedList pages
    get := fun _ => .ok { Raw := "aGk=", InternalDate := 1500000000000 }
    os := okScript
    removeErr := fun _ => none
    readdirErr := none }

/-- A stored message. -/
def sampleFile : File :=
  { content := [104, 105], mode := 0o400, mtime := 1400000000000000000 }

/-- The directory `{A, B, C, .lock}`. -/
def sampleDir : Dir :=
  [("A", sampleFile), ("B", sampleFile), ("C", sampleFile), (".lock", sampleFile)]

/-- Flags with everything off. -/
def noFlags : Flags := { delete := false, dryRun := false, verbose := false, incremental := false }

/-- The file `downloadMessage` stores for a message when the temporary file
was written at the time `now`. -/
def storedFile (raw : Bytes) (msg : Message) (now : Int) : File :=
  { content := raw, mode := 0o400, mtime := chtimesMtime msg.InternalDate now }

/-- The errors of the steps after the temporary file is created and before the
rename has succeeded: `Write`, `Chmod`, `Chtimes`, `Rename`. -/
def DlError.beforeRename : DlError → Bool
  | .write _ => true
  | .chmod _ => true
  | .chtimes _ => true
  | .rename _ => true
  | _ => false

/-- The error of the final `Close`. -/
def DlError.atClose : DlError → Bool
  | .close _ => true
  | _ => false

/-- The message `id` has been fetched and a message is in place at its final
path: the service returns `id` and its payload decodes, and the file at
`filepath.Join(outputPath, id)` is a complete stored message (decoded bytes,
read-only for the owner, dated by `os.Chtimes`) of one of the identifiers
`ids` fetched so far that has the same final path: `id` itself unless a fetch
of another such identifier has replaced the file. -/
def Stored (env : Env) (dir outside : Dir) (ids : List String) (id : String) : Prop :=
  (∃ msg raw, env.get id = .ok msg ∧ base64URLDecode msg.Raw = .ok raw) ∧
  ∃ id' ∈ ids, ∃ msg raw now,
    landing env.outputPath id' = landing env.outputPath id ∧
    env.get id' = .ok msg ∧ base64URLDecode msg.Raw = .ok raw ∧
    finalFile env.outputPath id dir outside = some (storedFile raw msg now)

/-- What the loop over messages has done between two states when it went
through the identifiers `ids` without leaving the run. -/
structure Progress (env : Env) (flags : Flags) (fileMap : FileMap)
    (st : State) (ids : List String) (st' : State) : Prop where
  processed : st'.processed = st.processed + ids.length
  seen : ∀ k, k ∈ st'.remoteMails ↔ k ∈ st.remoteMails ∨ k ∈ ids
  removedEq : removed st'.calls = removed st.calls
  fetchedEq : fetched st'.calls = fetched st.calls ++
    (if flags.dryRun then [] else ids.filter (fun id => (mapGet fileMap id).isNone))
  incr : flags.incremental = true → ∀ id ∈ ids, (mapGet fileMap id).isNone = true
  dry : flags.dryRun = true → st'.dir = st.dir
  keep : ∀ k, k ∈ mapKeys st.dir → k ∈ mapKeys st'.dir
  got : flags.dryRun = false → ∀ id ∈ ids, (mapGet fileMap id).isNone = true →
    ∀ name, landing env.outputPath id = .entry name → name ∈ mapKeys st'.dir
  idle : (∀ id ∈ ids, (mapGet fileMap id).isNone = false) → st'.dir = st.dir
  stored : (∀ id ∈ fetched st.calls, Stored env st.dir st.outside (fetched st.calls) id) →
    ∀ id ∈ fetched st'.calls, Stored env st'.dir st'.outside (fetched st'.calls) id
  listOk : (∀ t ∈ requested st.calls, ∃ r, env.list t = .ok r) →
    ∀ t ∈ requested st'.calls, ∃ r, env.list t = .ok r

/-- The test of lines 313-316 on a key of `fileMap`: not seen in the listing
and not beginning with a dot. -/
def orphan (remoteMails : List String) (k : String) : Bool :=
  !(decide (k ∈ remoteMails)) && !(HasPrefix k ".")

/-- A listing of two pages, `[A, D]` then `[B, E, D]`. -/
def twoPages : List (String × ListMessagesResponse) :=
  [("", ⟨["A", "D"], "p2"⟩), ("p2", ⟨["B", "E", "D"], ""⟩)]

/-- An operating system whose `Write` fails after one byte, with the random
part of the temporary name given. -/
def writeFailsScript (random : String) : OsScript :=
  { random := random, now := 1700000000000000000,
    createTemp := none, write := some (1, "no space left on device"), chmod := none,
    chtimes := none, rename := none, close := none }

/-- The ways the page loop leaves the run from the state `st1`: out of fuel,
a failing list request, or a message whose processing ends the run. -/
def Halted (env : Env) (flags : Flags) (fileMap : FileMap) (st1 : State) (o : Outcome)
    (st' : State) : Prop :=
  (o = .outOfFuel ∧ st' = st1) ∨
  (∃ t e, o = .fatalList t e ∧ env.list t = .error e ∧
    st' = { st1 with calls := st1.calls ++ [Call.list t] }) ∨
  (∃ id, processMessage env flags fileMap id st1 = .error (o, st'))

/-- Two states agree on `remoteMails` and `processed`. -/
def SameCount (sd sn : State) : Prop :=
  sd.remoteMails = sn.remoteMails ∧ sd.processed = sn.processed

/-- A world like `sampleEnv` in which the service does not have the message
`missing`. -/
def envWithoutMessage (pages : List (String × ListMessagesResponse)) (missing : String) : Env :=
  { outputPath := "/home/u/mail"
    list := pagedList pages
    get := fun id =>
      if id = missing then .error "notFound"
      else .ok { Raw := "aGk=", InternalDate := 1500000000000 }
    os := okScript
    removeErr := fun _ => none
    readdirErr := none }

/-- From `pageToken` the service answers the pages `init`, each with a
continuation token that requests the next, and then the page `last`. -/
def leadsTo (list : String → Except String ListMessagesResponse) :
    String → List ListMessagesResponse → ListMessagesResponse → Prop
  | pageToken, [], last => list pageToken = .ok last
  | pageToken, r :: rs, last =>
    list pageToken = .ok r ∧ r.NextPageToken ≠ "" ∧ leadsTo list r.NextPageToken rs last

/-- The run ended in a `log.Fatalf`: an operation failed. -/
def Outcome.isFatal : Outcome → Bool
  | .fatalReaddir _ => true
  | .fatalList _ _ => true
  | .fatalDownload _ _ => true
  | .fatalRemove _ _ => true
  | _ => false

/-- A world like `sampleEnv` in which every message is dated `msec`. -/
def envDated (msec : Int) : Env :=
  { outputPath := "/home/u/mail"
    list := pagedList []
    get := fun _ => .ok { Raw := "aGk=", InternalDate := msec }
    os := okScript
    removeErr := fun _ => none
    readdirErr := none }

/-- A plain file name: not empty, without separator, neither `.` nor `..`. -/
def isFileName (id : String) : Bool :=
  id.data != [] && !(id.data.contains '/') && id.data != ['.'] && id.data != ['.', '.']

/-! ## Maps -/

theorem mapGet_mapDelete {α : Type} (m : List (String × α)) (k k' : String) :
    mapGet (mapDelete m k) k' = if k' = k then none else mapGet m k' := by
  induction m with
  | nil => simp [mapGet, mapDelete]
  | cons p m ih =>
    obtain ⟨a, v⟩ := p
    simp only [mapGet, mapDelete] at ih ⊢
    by_cases hak : a = k
    · subst hak
      by_cases hk : k' = a
      · subst hk; simpa using ih
      · have : (k' == a) = false := by simpa using hk
        simp [List.filter_cons, List.lookup_cons, this, hk] at ih ⊢
        exact ih
    · have h1 : (a != k) = true := by simpa using hak
      by_cases hk : k' = a
      · subst hk
        simp [List.filter_cons, h1, List.lookup_cons, hak]
      · have : (k' == a) = false := by simpa using hk
        simp only [List.filter_cons, h1, if_true, List.lookup_cons, this]
        exact ih

theorem mapGet_mapSet {α : Type} (m : List (String × α)) (k k' : String) (v : α) :
    mapGet (mapSet m k v) k' = if k' = k then some v else mapGet m k' := by
  by_cases hk : k' = k
  · subst hk; simp [mapSet, mapGet, List.lookup_cons]
  · have : (k' == k) = false := by simpa using hk
    have h := mapGet_mapDelete m k k'
    simp only [mapGet, mapSet, List.lookup_cons, this, hk, if_false] at h ⊢
    exact h

theorem mapGet_isSome_iff {α : Type} (m : List (String × α)) (k : String) :
    (mapGet m k).isSome = true ↔ k ∈ mapKeys m := by
  induction m with
  | nil => simp [mapGet, mapKeys]
  | cons p m ih =>
    obtain ⟨a, v⟩ := p
    simp only [mapGet, mapKeys] at ih ⊢
    by_cases hk : k = a
    · subst hk; simp [List.lookup_cons]
    · have : (k == a) = false := by simpa using hk
      simp only [List.lookup_cons, this, List.map_cons, List.mem_cons, hk, false_or]
      exact ih

theorem mapGet_isNone_iff {α : Type} (m : List (String × α)) (k : String) :
    (mapGet m k).isNone = true ↔ k ∉ mapKeys m := by
  rw [← mapGet_isSome_iff]
  cases mapGet m k <;> simp

theorem mem_mapKeys_mapSet {α : Type} (m : List (String × α)) (k k' : String) (v : α) :
    k' ∈ mapKeys (mapSet m k v) ↔ k' = k ∨ k' ∈ mapKeys m := by
  rw [← mapGet_isSome_iff, ← mapGet_isSome_iff, mapGet_mapSet]
  by_cases hk : k' = k <;> simp [hk]

theorem mem_mapKeys_mapDelete {α : Type} (m : List (String × α)) (k k' : String) :
    k' ∈ mapKeys (mapDelete m k) ↔ k' ≠ k ∧ k' ∈ mapKeys m := by
  rw [← mapGet_isSome_iff, ← mapGet_isSome_iff, mapGet_mapDelete]
  by_cases hk : k' = k <;> simp [hk]

/-! ## readdir -/

theorem mem_mapKeys_foldl_mapSet (files : List FileInfo) (acc : FileMap) (k : String) :
    k ∈ mapKeys (files.foldl (fun fileMap v => mapSet fileMap v.name v) acc) ↔
      k ∈ mapKeys acc ∨ k ∈ files.map (fun v => v.name) := by
  induction files generalizing acc with
  | nil => simp
  | cons v vs ih =>
    simp only [List.foldl_cons, ih, mem_mapKeys_mapSet, List.map_cons, List.mem_cons]
    tauto

theorem readdir_ok {err : Option String} {dir : Dir} {fileMap : FileMap}
    (h : readdir err dir = .ok fileMap) :
    err = none ∧ ∀ k, k ∈ mapKeys fileMap ↔ k ∈ mapKeys dir := by
  cases err with
  | some e => simp [readdir] at h
  | none =>
    refine ⟨rfl, fun k => ?_⟩
    simp only [readdir, Except.ok.injEq] at h
    subst h
    rw [mem_mapKeys_foldl_mapSet]
    simp [mapKeys, fileInfo, Function.comp_def]

/-! ## downloadMessage -/

theorem downloadMessage_ok {env : Env} {os : OsScript} {id : String}
    {dir outside dir' outside' : Dir}
    (h : downloadMessage env os id dir outside = (none, dir', outside')) :
    ∃ msg raw, env.get id = .ok msg ∧ base64URLDecode msg.Raw = .ok raw ∧
      mapGet dir (tempName os) = none ∧
      renameTo dir outside (tempName os) (storedFile raw msg os.now)
        (landing env.outputPath id) = some (dir', outside') := by
  unfold downloadMessage at h
  split at h
  · simp at h
  · rename_i msg hget
    split at h
    · simp at h
    · rename_i raw hdec
      split at h
      · simp at h
      · split at h
        · simp at h
        · rename_i hfresh
          split at h
          · simp at h
          · split at h
            · simp at h
            · split at h
              · simp at h
              · split at h
                · simp at h
                · cases hren : renameTo dir outside (tempName os) (storedFile raw msg os.now)
                      (landing env.outputPath id) with
                  | none =>
                    simp only [storedFile] at hren
                    simp [hren] at h
                  | some r =>
                    obtain ⟨d, o⟩ := r
                    have hren0 := hren
                    simp only [storedFile] at hren
                    cases hclose : os.close with
                    | some e' => simp [hren, hclose] at h
                    | none =>
                      simp only [hren, hclose, Prod.mk.injEq, true_and] at h
                      obtain ⟨h1, h2⟩ := h
                      subst h1 h2
                      refine ⟨msg, raw, hget, hdec, ?_, hren0⟩
                      cases hg : mapGet dir (tempName os) with
                      | none => rfl
                      | some f => simp [hg] at hfresh

theorem downloadMessage_err {env : Env} {os : OsScript} {id : String}
    {dir outside dir' outside' : Dir} {e : DlError}
    (h : downloadMessage env os id dir outside = (some e, dir', outside')) :
    (e.beforeRename = false ∧ e.atClose = false ∧ dir' = dir ∧ outside' = outside) ∨
    (e.beforeRename = true ∧ mapGet dir (tempName os) = none ∧ outside' = outside ∧
      ∃ msg raw f, env.get id = .ok msg ∧ base64URLDecode msg.Raw = .ok raw ∧
        (∃ n, f.content = raw.take n) ∧ dir' = mapSet dir (tempName os) f) ∨
    (e.atClose = true ∧ mapGet dir (tempName os) = none ∧
      ∃ msg raw, env.get id = .ok msg ∧ base64URLDecode msg.Raw = .ok raw ∧
        renameTo dir outside (tempName os) (storedFile raw msg os.now)
          (landing env.outputPath id) = some (dir', outside')) := by
  unfold downloadMessage at h
  split at h
  · simp only [Prod.mk.injEq, Option.some.injEq] at h
    obtain ⟨h1, h2, h3⟩ := h
    subst h1 h2 h3
    exact Or.inl ⟨rfl, rfl, rfl, rfl⟩
  · rename_i msg hget
    split at h
    · simp only [Prod.mk.injEq, Option.some.injEq] at h
      obtain ⟨h1, h2, h3⟩ := h
      subst h1 h2 h3
      exact Or.inl ⟨rfl, rfl, rfl, rfl⟩
    · rename_i raw hdec
      split at h
      · simp only [Prod.mk.injEq, Option.some.injEq] at h
        obtain ⟨h1, h2, h3⟩ := h
        subst h1 h2 h3
        exact Or.inl ⟨rfl, rfl, rfl, rfl⟩
      · split at h
        · simp only [Prod.mk.injEq, Option.some.injEq] at h
          obtain ⟨h1, h2, h3⟩ := h
          subst h1 h2 h3
          exact Or.inl ⟨rfl, rfl, rfl, rfl⟩
        · rename_i hfresh
          have hnone : mapGet dir (tempName os) = none := by
            cases hg : mapGet dir (tempName os) with
            | none => rfl
            | some f => simp [hg] at hfresh
          split at h
          · rename_i n e' _
            simp only [Prod.mk.injEq, Option.some.injEq] at h
            obtain ⟨h1, h2, h3⟩ := h
            subst h1 h2 h3
            exact Or.inr (Or.inl ⟨rfl, hnone, rfl, msg, raw, _, hget, hdec, ⟨n, rfl⟩, rfl⟩)
          · split at h
            · simp only [Prod.mk.injEq, Option.some.injEq] at h
              obtain ⟨h1, h2, h3⟩ := h
              subst h1 h2 h3
              exact Or.inr (Or.inl ⟨rfl, hnone, rfl, msg, raw, _, hget, hdec,
                ⟨raw.length, by simp⟩, rfl⟩)
            · split at h
              · simp only [Prod.mk.injEq, Option.some.injEq] at h
                obtain ⟨h1, h2, h3⟩ := h
                subst h1 h2 h3
                exact Or.inr (Or.inl ⟨rfl, hnone, rfl, msg, raw, _, hget, hdec,
                  ⟨raw.length, by simp⟩, rfl⟩)
              · split at h
                · simp only [Prod.mk.injEq, Option.some.injEq] at h
                  obtain ⟨h1, h2, h3⟩ := h
                  subst h1 h2 h3
                  exact Or.inr (Or.inl ⟨rfl, hnone, rfl, msg, raw, _, hget, hdec,
                    ⟨raw.length, by simp⟩, rfl⟩)
                · cases hren : renameTo dir outside (tempName os) (storedFile raw msg os.now)
                      (landing env.outputPath id) with
                  | none =>
                    simp only [storedFile] at hren
                    simp only [hren, Prod.mk.injEq, Option.some.injEq] at h
                    obtain ⟨h1, h2, h3⟩ := h
                    subst h1 h2 h3
                    exact Or.inr (Or.inl ⟨rfl, hnone, rfl, msg, raw, _, hget, hdec,
                      ⟨raw.length, by simp⟩, rfl⟩)
                  | some r =>
                    obtain ⟨d, o⟩ := r
                    have hren0 := hren
                    simp only [storedFile] at hren
                    cases hclose : os.close with
                    | none => simp [hren, hclose] at h
                    | some e' =>
                      simp only [hren, hclose, Prod.mk.injEq, Option.some.injEq] at h
                      obtain ⟨h1, h2, h3⟩ := h
                      subst h1 h2 h3
                      exact Or.inr (Or.inr ⟨rfl, hnone, msg, raw, hget, hdec, hren0⟩)

theorem renameTo_keeps {dir outside dir' outside' : Dir} {temp : String} {f : File}
    {l : Landing} (h : renameTo dir outside temp f l = some (dir', outside'))
    (k : String) (hk : k ∈ mapKeys dir) (hne : k ≠ temp) : k ∈ mapKeys dir' := by
  cases l with
  | directory => simp [renameTo] at h
  | entry name =>
    simp only [renameTo, Option.some.injEq, Prod.mk.injEq] at h
    rw [← h.1, mem_mapKeys_mapSet, mem_mapKeys_mapDelete]
    exact Or.inr ⟨hne, hk⟩
  | elsewhere path =>
    simp only [renameTo, Option.some.injEq, Prod.mk.injEq] at h
    rw [← h.1, mem_mapKeys_mapDelete]
    exact ⟨hne, hk⟩

theorem renameTo_entry {dir outside dir' outside' : Dir} {temp name : String} {f : File}
    (h : renameTo dir outside temp f (.entry name) = some (dir', outside')) :
    dir' = mapSet (mapDelete dir temp) name f ∧ outside' = outside := by
  simp only [renameTo, Option.some.injEq, Prod.mk.injEq] at h
  exact ⟨h.1.symm, h.2.symm⟩

theorem downloadMessage_keep (env : Env) (os : OsScript) (id : String) (dir outside : Dir)
    (k : String) (hk : k ∈ mapKeys dir) :
    k ∈ mapKeys (downloadMessage env os id dir outside).2.1 := by
  have hne : mapGet dir (tempName os) = none → k ≠ tempName os := by
    intro hfresh hkt
    subst hkt
    rw [← mapGet_isSome_iff, hfresh] at hk
    cases hk
  cases hres : downloadMessage env os id dir outside with
  | mk r rest =>
    obtain ⟨dir', out'⟩ := rest
    cases r with
    | none =>
      obtain ⟨msg, raw, -, -, hfresh, hren⟩ := downloadMessage_ok hres
      exact renameTo_keeps hren k hk (hne hfresh)
    | some e =>
      rcases downloadMessage_err hres with ⟨-, -, hdir, -⟩ |
        ⟨-, hfresh, -, _, _, f, -, -, -, hdir⟩ | ⟨-, hfresh, _, _, -, -, hren⟩
      · simpa [hdir] using hk
      · simp only [hdir, mem_mapKeys_mapSet]
        exact Or.inr hk
      · exact renameTo_keeps hren k hk (hne hfresh)

theorem finalFile_mapSet_temp {outputPath : String} {dir outside : Dir} {temp : String}
    (hfresh : mapGet dir temp = none) (g : File) (k : String) (f : File)
    (hk : finalFile outputPath k dir outside = some f) :
    finalFile outputPath k (mapSet dir temp g) outside = some f := by
  unfold finalFile at hk ⊢
  cases hl : landing outputPath k with
  | directory => simp [hl] at hk
  | elsewhere path => simpa [hl] using hk
  | entry name =>
    simp only [hl] at hk ⊢
    have hne : name ≠ temp := by
      intro h; subst h; rw [hfresh] at hk; cases hk
    rw [mapGet_mapSet, if_neg hne]
    exact hk

theorem finalFile_renameTo_same {outputPath : String} {dir outside dir' outside' : Dir}
    {temp : String} {sf : File} {k : String}
    (hren : renameTo dir outside temp sf (landing outputPath k) = some (dir', outside')) :
    finalFile outputPath k dir' outside' = some sf := by
  unfold finalFile
  cases hl : landing outputPath k with
  | directory => simp [hl, renameTo] at hren
  | elsewhere path =>
    simp only [hl, renameTo, Option.some.injEq, Prod.mk.injEq] at hren
    simp only [← hren.2, mapGet_mapSet, if_true]
  | entry name =>
    simp only [hl, renameTo, Option.some.injEq, Prod.mk.injEq] at hren
    simp only [← hren.1, mapGet_mapSet, if_true]

theorem finalFile_renameTo_other {outputPath : String} {dir outside dir' outside' : Dir}
    {temp : String} {sf f : File} {l : Landing} {k : String}
    (hfresh : mapGet dir temp = none)
    (hren : renameTo dir outside temp sf l = some (dir', outside'))
    (hl : landing outputPath k ≠ l)
    (hk : finalFile outputPath k dir outside = some f) :
    finalFile outputPath k dir' outside' = some f := by
  unfold finalFile at hk ⊢
  cases hlk : landing outputPath k with
  | directory => simp [hlk] at hk
  | elsewhere path =>
    simp only [hlk] at hk ⊢
    cases l with
    | directory => simp [renameTo] at hren
    | entry name =>
      simp only [renameTo, Option.some.injEq, Prod.mk.injEq] at hren
      rw [← hren.2]; exact hk
    | elsewhere path' =>
      simp only [renameTo, Option.some.injEq, Prod.mk.injEq] at hren
      have hne : path ≠ path' := by
        intro h; subst h; exact hl hlk
      rw [← hren.2, mapGet_mapSet, if_neg hne]
      exact hk
  | entry name =>
    simp only [hlk] at hk ⊢
    have hnt : name ≠ temp := by
      intro h; subst h; rw [hfresh] at hk; cases hk
    cases l with
    | directory => simp [renameTo] at hren
    | entry name' =>
      simp only [renameTo, Option.some.injEq, Prod.mk.injEq] at hren
      have hne : name ≠ name' := by
        intro h; subst h; exact hl hlk
      rw [← hren.1, mapGet_mapSet, if_neg hne, mapGet_mapDelete, if_neg hnt]
      exact hk
    | elsewhere path' =>
      simp only [renameTo, Option.some.injEq, Prod.mk.injEq] at hren
      rw [← hren.1, mapGet_mapDelete, if_neg hnt]
      exact hk

theorem Stored.renamed {env : Env} {dir outside dir' outside' : Dir} {temp id : String}
    {msg : Message} {raw : Bytes} {now : Int} (ids ids' : List String)
    (hid : id ∈ ids') (hsub : ∀ x ∈ ids, x ∈ ids')
    (hget : env.get id = .ok msg) (hdec : base64URLDecode msg.Raw = .ok raw)
    (hfresh : mapGet dir temp = none)
    (hren : renameTo dir outside temp (storedFile raw msg now) (landing env.outputPath id) =
      some (dir', outside')) :
    Stored env dir' outside' ids' id ∧
    ∀ k, Stored env dir outside ids k → Stored env dir' outside' ids' k := by
  constructor
  · exact ⟨⟨msg, raw, hget, hdec⟩, id, hid, msg, raw, now, rfl, hget, hdec,
      finalFile_renameTo_same hren⟩
  · rintro k ⟨hfetch, id', hid', msg', raw', now', hland, hget', hdec', hfile⟩
    by_cases hl : landing env.outputPath k = landing env.outputPath id
    · refine ⟨hfetch, id, hid, msg, raw, now, hl.symm, hget, hdec, ?_⟩
      rw [← hl] at hren
      exact finalFile_renameTo_same hren
    · exact ⟨hfetch, id', hsub id' hid', msg', raw', now', hland, hget', hdec',
        finalFile_renameTo_other hfresh hren hl hfile⟩

theorem downloadMessage_stored (env : Env) (os : OsScript) (id : String) (dir outside : Dir)
    (ids ids' : List String) (hid : id ∈ ids') (hsub : ∀ x ∈ ids, x ∈ ids')
    (k : String) (hk : Stored env dir outside ids k) :
    Stored env (downloadMessage env os id dir outside).2.1
      (downloadMessage env os id dir outside).2.2 ids' k := by
  cases hres : downloadMessage env os id dir outside with
  | mk r rest =>
    obtain ⟨dir', out'⟩ := rest
    cases r with
    | none =>
      obtain ⟨msg, raw, hget, hdec, hfresh, hren⟩ := downloadMessage_ok hres
      exact (Stored.renamed ids ids' hid hsub hget hdec hfresh hren).2 k hk
    | some e =>
      obtain ⟨hfetch, id', hid', msg', raw', now', hland, hget', hdec', hfile⟩ := hk
      rcases downloadMessage_err hres with ⟨-, -, hdir, hout⟩ |
        ⟨-, hfresh, hout, _, _, f, -, -, -, hdir⟩ | ⟨-, hfresh, msg, raw, hget, hdec, hren⟩
      · simp only [hdir, hout]
        exact ⟨hfetch, id', hsub id' hid', msg', raw', now', hland, hget', hdec', hfile⟩
      · simp only [hdir, hout]
        exact ⟨hfetch, id', hsub id' hid', msg', raw', now', hland, hget', hdec',
          finalFile_mapSet_temp hfresh f k _ hfile⟩
      · exact (Stored.renamed ids ids' hid hsub hget hdec hfresh hren).2 k
          ⟨hfetch, id', hid', msg', raw', now', hland, hget', hdec', hfile⟩

/-! ## Calls -/

@[simp] theorem fetched_append (a b : List Call) : fetched (a ++ b) = fetched a ++ fetched b := by
  simp [fetched, List.filterMap_append]

@[simp] theorem removed_append (a b : List Call) : removed (a ++ b) = removed a ++ removed b := by
  simp [removed, List.filterMap_append]

@[simp] theorem requested_append (a b : List Call) :
    requested (a ++ b) = requested a ++ requested b := by
  simp [requested, List.filterMap_append]

@[simp] theorem fetched_nil : fetched [] = [] := rfl
@[simp] theorem removed_nil : removed [] = [] := rfl
@[simp] theorem requested_nil : requested [] = [] := rfl
@[simp] theorem fetched_get (id : String) : fetched [Call.get id] = [id] := rfl
@[simp] theorem fetched_list (t : String) : fetched [Call.list t] = [] := rfl
@[simp] theorem fetched_remove (k : String) : fetched [Call.remove k] = [] := rfl
@[simp] theorem removed_get (id : String) : removed [Call.get id] = [] := rfl
@[simp] theorem removed_list (t : String) : removed [Call.list t] = [] := rfl
@[simp] theorem removed_remove (k : String) : removed [Call.remove k] = [k] := rfl
@[simp] theorem requested_get (id : String) : requested [Call.get id] = [] := rfl
@[simp] theorem requested_list (t : String) : requested [Call.list t] = [t] := rfl
@[simp] theorem requested_remove (k : String) : requested [Call.remove k] = [] := rfl

theorem mem_markSeen (l : List String) (id k : String) :
    k ∈ markSeen l id ↔ k ∈ l ∨ k = id := by
  unfold markSeen
  split
  · constructor
    · intro h; exact Or.inl h
    · rintro (h | h)
      · exact h
      · subst h; assumption
  · simp [or_comm]

/-! ## One message -/

theorem processMessage_ok {env : Env} {flags : Flags} {fileMap : FileMap} {id : String}
    {st st' : State} (h : processMessage env flags fileMap id st = .ok st') :
    st'.remoteMails = markSeen st.remoteMails id ∧
    st'.processed = st.processed + 1 ∧
    ((st'.dir = st.dir ∧ st'.outside = st.outside ∧ st'.calls = st.calls ∧
        st'.downloads = st.downloads ∧
        ((flags.dryRun = true ∧ (mapGet fileMap id).isNone = true) ∨
          ((mapGet fileMap id).isNone = false ∧ flags.incremental = false))) ∨
      (flags.dryRun = false ∧ (mapGet fileMap id).isNone = true ∧
        st'.calls = st.calls ++ [Call.get id] ∧ st'.downloads = st.downloads + 1 ∧
        downloadMessage env (env.os st.downloads) id st.dir st.outside =
          (none, st'.dir, st'.outside))) := by
  unfold processMessage at h
  split at h
  · rename_i hloc
    split at h
    · rename_i hdry
      simp only [Bool.not_eq_true'] at hdry
      dsimp only at h
      split at h
      · simp at h
      · rename_i dir' out' hdl
        simp only [Except.ok.injEq] at h
        subst h
        refine ⟨rfl, rfl, Or.inr ⟨hdry, hloc, rfl, rfl, ?_⟩⟩
        simpa using hdl
    · rename_i hdry
      simp only [Bool.not_eq_true', Bool.not_eq_false] at hdry
      simp only [Except.ok.injEq] at h
      subst h
      exact ⟨rfl, rfl, Or.inl ⟨rfl, rfl, rfl, rfl, Or.inl ⟨hdry, hloc⟩⟩⟩
  · rename_i hloc
    simp only [Bool.not_eq_true] at hloc
    split at h
    · simp at h
    · rename_i hinc
      simp only [Bool.not_eq_true] at hinc
      simp only [Except.ok.injEq] at h
      subst h
      exact ⟨rfl, rfl, Or.inl ⟨rfl, rfl, rfl, rfl, Or.inr ⟨hloc, hinc⟩⟩⟩

theorem processMessage_error {env : Env} {flags : Flags} {fileMap : FileMap} {id : String}
    {st st' : State} {o : Outcome}
    (h : processMessage env flags fileMap id st = .error (o, st')) :
    (o = .stoppedEarly ∧ flags.incremental = true ∧ (mapGet fileMap id).isNone = false ∧
      st' = { st with remoteMails := markSeen st.remoteMails id }) ∨
    (∃ e dir' out', o = .fatalDownload id e ∧ flags.dryRun = false ∧
      (mapGet fileMap id).isNone = true ∧
      downloadMessage env (env.os st.downloads) id st.dir st.outside = (some e, dir', out') ∧
      st' = { st with remoteMails := markSeen st.remoteMails id,
                      calls := st.calls ++ [Call.get id],
                      downloads := st.downloads + 1, dir := dir', outside := out' }) := by
  unfold processMessage at h
  split at h
  · rename_i hloc
    split at h
    · rename_i hdry
      simp only [Bool.not_eq_true'] at hdry
      dsimp only at h
      split at h
      · rename_i e dir' out' hdl
        simp only [Except.error.injEq, Prod.mk.injEq] at h
        obtain ⟨h1, h2⟩ := h
        subst h1 h2
        exact Or.inr ⟨e, dir', out', rfl, hdry, hloc, by simpa using hdl, rfl⟩
      · simp at h
    · simp at h
  · rename_i hloc
    simp only [Bool.not_eq_true] at hloc
    split at h
    · rename_i hinc
      simp only [Except.error.injEq, Prod.mk.injEq] at h
      obtain ⟨h1, h2⟩ := h
      subst h1 h2
      exact Or.inl ⟨rfl, hinc, hloc, rfl⟩
    · simp at h

/-! ## Progress -/

theorem Progress.refl (env : Env) (flags : Flags) (fileMap : FileMap) (st : State) :
    Progress env flags fileMap st [] st where
  processed := by simp
  seen := by simp
  removedEq := rfl
  fetchedEq := by simp
  incr := by simp
  dry := fun _ => rfl
  keep := fun _ h => h
  got := by simp
  idle := fun _ => rfl
  stored := fun h => h
  listOk := fun h => h

theorem Progress.trans {env : Env} {flags : Flags} {fileMap : FileMap} {st st1 st2 : State}
    {a b : List String} (h1 : Progress env flags fileMap st a st1)
    (h2 : Progress env flags fileMap st1 b st2) :
    Progress env flags fileMap st (a ++ b) st2 where
  processed := by rw [h2.processed, h1.processed, List.length_append, Nat.add_assoc]
  seen := by
    intro k
    rw [h2.seen, h1.seen, List.mem_append, or_assoc]
  removedEq := by rw [h2.removedEq, h1.removedEq]
  fetchedEq := by
    rw [h2.fetchedEq, h1.fetchedEq]
    cases flags.dryRun <;> simp [List.filter_append]
  incr := by
    intro hi id hid
    rcases List.mem_append.mp hid with h | h
    · exact h1.incr hi id h
    · exact h2.incr hi id h
  dry := fun hd => by rw [h2.dry hd, h1.dry hd]
  keep := fun k hk => h2.keep k (h1.keep k hk)
  got := by
    intro hd id hid hn
    rcases List.mem_append.mp hid with h | h
    · exact fun name hname => h2.keep name (h1.got hd id h hn name hname)
    · exact h2.got hd id h hn
  idle := by
    intro hall
    rw [h2.idle (fun id hid => hall id (List.mem_append.mpr (Or.inr hid))),
      h1.idle (fun id hid => hall id (List.mem_append.mpr (Or.inl hid)))]
  stored := fun h => h2.stored (h1.stored h)
  listOk := fun h => h2.listOk (h1.listOk h)

theorem Progress.afterList {env : Env} {flags : Flags} {fileMap : FileMap} {st st' : State}
    {ids : List String} {t : String} {r : ListMessagesResponse} (hr : env.list t = .ok r)
    (h : Progress env flags fileMap { st with calls := st.calls ++ [Call.list t] } ids st') :
    Progress env flags fileMap st ids st' where
  processed := h.processed
  seen := h.seen
  removedEq := by simpa using h.removedEq
  fetchedEq := by simpa using h.fetchedEq
  incr := h.incr
  dry := h.dry
  keep := h.keep
  got := h.got
  idle := h.idle
  stored := by
    intro hs
    apply h.stored
    simpa using hs
  listOk := by
    intro hs
    apply h.listOk
    intro t' ht'
    simp only [requested_append, requested_list, List.mem_append, List.mem_singleton] at ht'
    rcases ht' with h' | h'
    · exact hs t' h'
    · subst h'; exact ⟨r, hr⟩

theorem Progress.step {env : Env} {flags : Flags} {fileMap : FileMap} {id : String}
    {st st' : State} (h : processMessage env flags fileMap id st = .ok st') :
    Progress env flags fileMap st [id] st' := by
  obtain ⟨hseen, hproc, hcase⟩ := processMessage_ok h
  rcases hcase with ⟨hdir, hout, hcalls, -, hwhy⟩ | ⟨hdry, hloc, hcalls, -, hdl⟩
  · refine ⟨by simpa using hproc, ?_, by rw [hcalls], ?_, ?_, fun _ => hdir, ?_, ?_,
      fun _ => hdir, ?_, ?_⟩
    · intro k; rw [hseen, mem_markSeen]; simp
    · rw [hcalls]
      rcases hwhy with ⟨hd, -⟩ | ⟨hl, -⟩
      · simp [hd]
      · simp [List.filter_cons, hl]
    · intro hi id' hid'
      simp only [List.mem_singleton] at hid'
      subst hid'
      rcases hwhy with ⟨-, hl⟩ | ⟨-, hni⟩
      · exact hl
      · rw [hi] at hni; cases hni
    · intro k hk; rw [hdir]; exact hk
    · intro hd id' hid' hn
      simp only [List.mem_singleton] at hid'
      subst hid'
      rcases hwhy with ⟨hd', -⟩ | ⟨hl, -⟩
      · rw [hd] at hd'; cases hd'
      · rw [hn] at hl; cases hl
    · intro hs; rw [hcalls, hdir, hout]; exact hs
    · intro hs; rw [hcalls]; exact hs
  · obtain ⟨msg, raw, hget, hdec, hfresh, hren⟩ := downloadMessage_ok hdl
    have hne : ∀ k, k ∈ mapKeys st.dir → k ≠ tempName (env.os st.downloads) := by
      intro k hk hkt
      subst hkt
      rw [← mapGet_isSome_iff, hfresh] at hk
      cases hk
    have hfet : fetched st'.calls = fetched st.calls ++ [id] := by rw [hcalls]; simp
    obtain ⟨hself, hothers⟩ := Stored.renamed (fetched st.calls) (fetched st'.calls)
      (by rw [hfet]; simp) (fun x hx => by rw [hfet]; simp [hx]) hget hdec hfresh hren
    refine ⟨by simpa using hproc, ?_, by rw [hcalls]; simp, ?_, ?_, ?_, ?_, ?_, ?_, ?_, ?_⟩
    · intro k; rw [hseen, mem_markSeen]; simp
    · rw [hcalls]; simp [hdry, List.filter_cons, hloc]
    · intro _ id' hid'
      simp only [List.mem_singleton] at hid'
      subst hid'; exact hloc
    · intro hd; rw [hdry] at hd; cases hd
    · intro k hk
      exact renameTo_keeps hren k hk (hne k hk)
    · intro _ id' hid' _ name hname
      simp only [List.mem_singleton] at hid'
      subst hid'
      rw [hname] at hren
      rw [(renameTo_entry hren).1, mem_mapKeys_mapSet]
      exact Or.inl rfl
    · intro hall
      have := hall id (List.mem_singleton.mpr rfl)
      rw [hloc] at this; cases this
    · intro hs id' hid'
      rw [hcalls] at hid'
      simp only [fetched_append, fetched_get, List.mem_append, List.mem_singleton] at hid'
      rcases hid' with h' | h'
      · exact hothers id' (hs id' h')
      · subst h'; exact hself
    · intro hs; rw [hcalls]; simpa using hs

/-! ## The loop over the messages of a page -/

theorem processMessages_ok {env : Env} {flags : Flags} {fileMap : FileMap} {ids : List String}
    {st st' : State} (h : processMessages env flags fileMap ids st = .ok st') :
    Progress env flags fileMap st ids st' := by
  induction ids generalizing st with
  | nil =>
    simp only [processMessages, Except.ok.injEq] at h
    subst h
    exact Progress.refl env flags fileMap st
  | cons id ids ih =>
    simp only [processMessages] at h
    split at h
    · simp at h
    · rename_i st1 h1
      exact Progress.trans (Progress.step h1) (ih h)

theorem processMessages_error {env : Env} {flags : Flags} {fileMap : FileMap}
    {ids : List String} {st st' : State} {o : Outcome}
    (h : processMessages env flags fileMap ids st = .error (o, st')) :
    ∃ pre id post st1, ids = pre ++ id :: post ∧ Progress env flags fileMap st pre st1 ∧
      processMessage env flags fileMap id st1 = .error (o, st') := by
  induction ids generalizing st with
  | nil => simp [processMessages] at h
  | cons id ids ih =>
    simp only [processMessages] at h
    split at h
    · rename_i r h1
      simp only [Except.error.injEq] at h
      subst h
      exact ⟨[], id, ids, st, rfl, Progress.refl env flags fileMap st, h1⟩
    · rename_i st1 h1
      obtain ⟨pre, id', post, st2, hids, hp, hlast⟩ := ih h
      exact ⟨id :: pre, id', post, st2, by rw [hids]; rfl,
        Progress.trans (Progress.step h1) hp, hlast⟩

/-! ## The page loop -/

theorem pageLoop_ok {env : Env} {flags : Flags} {fileMap : FileMap} {fuel : Nat}
    {tok : String} {st st' : State} (h : pageLoop env flags fileMap fuel tok st = .ok st') :
    ∃ pages, listedPages env.list fuel tok = some pages ∧
      Progress env flags fileMap st (listedIds pages) st' := by
  induction fuel generalizing tok st with
  | zero => simp [pageLoop] at h
  | succ fuel ih =>
    simp only [pageLoop] at h
    split at h
    · simp at h
    · rename_i r hr
      split at h
      · simp at h
      · rename_i st1 h1
        have hp := Progress.afterList hr (processMessages_ok h1)
        split at h
        · rename_i hend
          simp only [Except.ok.injEq] at h
          subst h
          refine ⟨[r], ?_, ?_⟩
          · simp [listedPages, hr, hend]
          · simpa [listedIds] using hp
        · rename_i hend
          obtain ⟨pages, hpages, hp2⟩ := ih h
          refine ⟨r :: pages, ?_, ?_⟩
          · simp [listedPages, hr, hend, hpages]
          · simpa [listedIds] using Progress.trans hp hp2

theorem pageLoop_error {env : Env} {flags : Flags} {fileMap : FileMap} {fuel : Nat}
    {tok : String} {st st' : State} {o : Outcome}
    (h : pageLoop env flags fileMap fuel tok st = .error (o, st')) :
    ∃ ids st1, Progress env flags fileMap st ids st1 ∧
      Halted env flags fileMap st1 o st' := by
  unfold Halted
  induction fuel generalizing tok st with
  | zero =>
    simp only [pageLoop, Except.error.injEq, Prod.mk.injEq] at h
    obtain ⟨h1, h2⟩ := h
    subst h1 h2
    exact ⟨[], st, Progress.refl env flags fileMap st, Or.inl ⟨rfl, rfl⟩⟩
  | succ fuel ih =>
    simp only [pageLoop] at h
    split at h
    · rename_i e he
      simp only [Except.error.injEq, Prod.mk.injEq] at h
      obtain ⟨h1, h2⟩ := h
      subst h1 h2
      exact ⟨[], st, Progress.refl env flags fileMap st, Or.inr (Or.inl ⟨tok, e, rfl, he, rfl⟩)⟩
    · rename_i r hr
      split at h
      · rename_i res h1
        simp only [Except.error.injEq] at h
        subst h
        obtain ⟨pre, id, post, st1, -, hp, hlast⟩ := processMessages_error h1
        exact ⟨pre, st1, Progress.afterList hr hp, Or.inr (Or.inr ⟨id, hlast⟩)⟩
      · rename_i st1 h1
        have hp := Progress.afterList hr (processMessages_ok h1)
        split at h
        · simp at h
        · obtain ⟨ids, st2, hp2, hlast⟩ := ih h
          exact ⟨_, st2, Progress.trans hp hp2, hlast⟩

/-! ## The deletion sweep -/

theorem sweep_ok {env : Env} {flags : Flags} {ks : List String} {st st' : State}
    (h : sweep env flags ks st = .ok st') :
    st'.remoteMails = st.remoteMails ∧ st'.processed = st.processed ∧
    fetched st'.calls = fetched st.calls ∧
    removed st'.calls = removed st.calls ++
      (if flags.dryRun then [] else ks.filter (orphan st.remoteMails)) ∧
    (∀ k', mapGet st'.dir k' =
      if k' ∈ (if flags.dryRun then [] else ks.filter (orphan st.remoteMails)) then none
      else mapGet st.dir k') := by
  induction ks generalizing st with
  | nil =>
    simp only [sweep, Except.ok.injEq] at h
    subst h
    simp
  | cons k ks ih =>
    simp only [sweep] at h
    split at h
    · rename_i hk
      split at h
      · rename_i hdot
        have horph : orphan st.remoteMails k = false := by simp [orphan, hdot]
        obtain ⟨h1, h2, h3, h4, h5⟩ := ih h
        simp only [List.filter_cons, horph]
        exact ⟨h1, h2, h3, h4, h5⟩
      · rename_i hdot
        have horph : orphan st.remoteMails k = true := by
          simp only [orphan, Bool.and_eq_true]
          exact ⟨hk, by simpa using hdot⟩
        split at h
        · rename_i hdry
          simp only [Bool.not_eq_true'] at hdry
          split at h
          · simp at h
          · split at h
            · simp at h
            · obtain ⟨h1, h2, h3, h4, h5⟩ := ih h
              simp only [removed_append, removed_remove, fetched_append, fetched_remove,
                List.append_nil, hdry] at h1 h2 h3 h4 h5 ⊢
              refine ⟨h1, h2, h3, ?_, ?_⟩
              · rw [h4]
                simp [List.filter_cons, horph]
              · intro k'
                rw [h5 k', mapGet_mapDelete]
                simp only [Bool.false_eq_true, if_false, List.filter_cons, horph, if_true,
                  List.mem_cons]
                by_cases hkk : k' = k
                · simp [hkk]
                · simp [hkk]
        · rename_i hdry
          simp only [Bool.not_eq_true', Bool.not_eq_false] at hdry
          obtain ⟨h1, h2, h3, h4, h5⟩ := ih h
          simp only [hdry, if_true] at h4 h5 ⊢
          exact ⟨h1, h2, h3, h4, h5⟩
    · rename_i hk
      have horph : orphan st.remoteMails k = false := by
        simp only [orphan, Bool.and_eq_false_imp]
        intro h'; exact absurd h' hk
      obtain ⟨h1, h2, h3, h4, h5⟩ := ih h
      simp only [List.filter_cons, horph]
      exact ⟨h1, h2, h3, h4, h5⟩

theorem sweep_error {env : Env} {flags : Flags} {ks : List String} {st st' : State}
    {o : Outcome} (h : sweep env flags ks st = .error (o, st')) :
    flags.dryRun = false ∧ (∃ k e, o = .fatalRemove k e) ∧
    st'.remoteMails = st.remoteMails ∧ st'.processed = st.processed ∧
    fetched st'.calls = fetched st.calls := by
  induction ks generalizing st with
  | nil => simp [sweep] at h
  | cons k ks ih =>
    simp only [sweep] at h
    split at h
    · split at h
      · exact ih h
      · split at h
        · rename_i hdry
          simp only [Bool.not_eq_true'] at hdry
          split at h
          · rename_i e he
            simp only [Except.error.injEq, Prod.mk.injEq] at h
            obtain ⟨h1, h2⟩ := h
            subst h1 h2
            exact ⟨hdry, ⟨k, e, rfl⟩, rfl, rfl, by simp⟩
          · split at h
            · simp only [Except.error.injEq, Prod.mk.injEq] at h
              obtain ⟨h1, h2⟩ := h
              subst h1 h2
              exact ⟨hdry, ⟨k, _, rfl⟩, rfl, rfl, by simp⟩
            · obtain ⟨h1, h2, h3, h4, h5⟩ := ih h
              exact ⟨h1, h2, h3, h4, by simpa using h5⟩
        · exact ih h
    · exact ih h

/-! ## The run -/

theorem main_cases {env : Env} {flags : Flags} {dir : Dir} {fuel : Nat} {o : Outcome}
    {st : State} (h : main env flags dir fuel = (o, st)) :
    (∃ e, env.readdirErr = some e ∧ o = .fatalReaddir e ∧ st = initState dir) ∨
    (∃ fileMap, readdir env.readdirErr dir = .ok fileMap ∧
      (pageLoop env flags fileMap fuel "" (initState dir) = .error (o, st) ∨
       (∃ st1, pageLoop env flags fileMap fuel "" (initState dir) = .ok st1 ∧
          ((flags.delete = false ∧ o = .finished ∧ st = st1) ∨
           (flags.delete = true ∧ sweep env flags (mapKeys fileMap) st1 = .error (o, st)) ∨
           (flags.delete = true ∧ sweep env flags (mapKeys fileMap) st1 = .ok st ∧
              o = .finished))))) := by
  unfold main at h
  split at h
  · rename_i e he
    simp only [Prod.mk.injEq] at h
    obtain ⟨h1, h2⟩ := h
    subst h1 h2
    left
    refine ⟨e, ?_, rfl, rfl⟩
    cases hr : env.readdirErr with
    | none => simp [readdir, hr] at he
    | some e' => simp [readdir, hr] at he; rw [he]
  · rename_i fileMap hfm
    right
    refine ⟨fileMap, hfm, ?_⟩
    split at h
    · rename_i res hres
      subst h
      exact Or.inl hres
    · rename_i st1 hst1
      right
      refine ⟨st1, hst1, ?_⟩
      split at h
      · rename_i hdel
        split at h
        · rename_i res hres
          subst h
          exact Or.inr (Or.inl ⟨hdel, hres⟩)
        · rename_i st2 hst2
          simp only [Prod.mk.injEq] at h
          obtain ⟨h1, h2⟩ := h
          subst h1 h2
          exact Or.inr (Or.inr ⟨hdel, hst2, rfl⟩)
      · rename_i hdel
        simp only [Bool.not_eq_true] at hdel
        simp only [Prod.mk.injEq] at h
        obtain ⟨h1, h2⟩ := h
        subst h1 h2
        exact Or.inl ⟨hdel, rfl, rfl⟩

theorem main_finished {env : Env} {flags : Flags} {dir : Dir} {fuel : Nat}
    {st : State} (h : main env flags dir fuel = (.finished, st)) :
    ∃ fileMap st1, readdir env.readdirErr dir = .ok fileMap ∧
      pageLoop env flags fileMap fuel "" (initState dir) = .ok st1 ∧
      ((flags.delete = false ∧ st = st1) ∨
       (flags.delete = true ∧ sweep env flags (mapKeys fileMap) st1 = .ok st)) := by
  rcases main_cases h with ⟨e, -, ho, -⟩ | ⟨fileMap, hfm, hrest⟩
  · cases ho
  · rcases hrest with herr | ⟨st1, hst1, hcase⟩
    · obtain ⟨ids, s1, -, hlast⟩ := pageLoop_error herr
      unfold Halted at hlast
      rcases hlast with ⟨ho, -⟩ | ⟨t, e, ho, -⟩ | ⟨id, hpm⟩
      · cases ho
      · cases ho
      · rcases processMessage_error hpm with ⟨ho, -⟩ | ⟨e, d, _, ho, -⟩
        · cases ho
        · cases ho
    · rcases hcase with ⟨hdel, -, hst⟩ | ⟨hdel, hsw⟩ | ⟨hdel, hsw, -⟩
      · exact ⟨fileMap, st1, hfm, hst1, Or.inl ⟨hdel, hst⟩⟩
      · obtain ⟨-, ⟨k, e, ho⟩, -⟩ := sweep_error hsw
        cases ho
      · exact ⟨fileMap, st1, hfm, hst1, Or.inr ⟨hdel, hsw⟩⟩

theorem isNone_fileMap_iff {err : Option String} {dir : Dir} {fileMap : FileMap}
    (h : readdir err dir = .ok fileMap) (id : String) :
    (mapGet fileMap id).isNone = true ↔ id ∉ mapKeys dir := by
  rw [mapGet_isNone_iff, (readdir_ok h).2]

theorem filter_isNone_fileMap {err : Option String} {dir : Dir} {fileMap : FileMap}
    (h : readdir err dir = .ok fileMap) (ids : List String) :
    ids.filter (fun id => (mapGet fileMap id).isNone) =
      ids.filter (fun id => decide (id ∉ mapKeys dir)) := by
  apply List.filter_congr
  intro id _
  by_cases hid : id ∈ mapKeys dir
  · have : ¬ (mapGet fileMap id).isNone = true := by
      rw [isNone_fileMap_iff h]; simpa using hid
    simp [hid, this]
  · have : (mapGet fileMap id).isNone = true := by
      rw [isNone_fileMap_iff h]; exact hid
    simp [hid, this]

theorem Halted.effects {env : Env} {flags : Flags} {fileMap : FileMap} {st1 st' : State}
    {o : Outcome} (h : Halted env flags fileMap st1 o st') :
    removed st'.calls = removed st1.calls ∧
    (∀ k, k ∈ mapKeys st1.dir → k ∈ mapKeys st'.dir) ∧
    st'.processed = st1.processed ∧
    (∀ k, k ∈ st1.remoteMails → k ∈ st'.remoteMails) ∧
    (flags.dryRun = true → st'.dir = st1.dir ∧ fetched st'.calls = fetched st1.calls) ∧
    ((∀ id e, o ≠ .fatalDownload id e) →
      st'.dir = st1.dir ∧ fetched st'.calls = fetched st1.calls) ∧
    (∀ k e, o ≠ .fatalRemove k e) ∧ o ≠ .finished ∧ (∀ e, o ≠ .fatalReaddir e) := by
  rcases h with ⟨ho, hst⟩ | ⟨t, e, ho, -, hst⟩ | ⟨id, hpm⟩
  · subst ho hst
    simp
  · subst ho hst
    simp
  · rcases processMessage_error hpm with ⟨ho, -, -, hst⟩ | ⟨e, dir', out', ho, hdry, -, hdl, hst⟩
    · subst ho hst
      simp only [true_and, ne_eq, not_false_eq_true, implies_true, and_true, reduceCtorEq]
      refine ⟨fun k hk => hk, fun k hk => ?_⟩
      rw [mem_markSeen]; exact Or.inl hk
    · subst ho hst
      simp only [removed_append, removed_get, List.append_nil, true_and, hdry,
        Bool.false_eq_true, false_implies, ne_eq, not_false_eq_true, implies_true, and_true,
        reduceCtorEq]
      refine ⟨fun k hk => ?_, fun k hk => ?_, fun hne => ?_⟩
      · have := downloadMessage_keep env (env.os st1.downloads) id st1.dir st1.outside k hk
        rw [hdl] at this
        exact this
      · rw [mem_markSeen]; exact Or.inl hk
      · exact absurd rfl (hne id e)

theorem sweep_dry {env : Env} {flags : Flags} (hdry : flags.dryRun = true) (ks : List String)
    (st : State) : sweep env flags ks st = .ok st := by
  induction ks with
  | nil => rfl
  | cons k ks ih =>
    simp only [sweep, hdry, Bool.not_true, Bool.false_eq_true, if_false, ih, ite_self]

/-! ## A dry run next to the run with dry-run off -/

theorem processMessage_dry {env : Env} {flags : Flags} (hd : flags.dryRun = true)
    (fileMap : FileMap) (id : String) (st : State) :
    processMessage env flags fileMap id st =
      if (mapGet fileMap id).isNone = false ∧ flags.incremental = true then
        .error (.stoppedEarly, { st with remoteMails := markSeen st.remoteMails id })
      else .ok { st with remoteMails := markSeen st.remoteMails id,
                         processed := st.processed + 1 } := by
  unfold processMessage
  cases h1 : (mapGet fileMap id).isNone <;> cases h2 : flags.incremental <;> simp [hd]

theorem processMessage_sim (env : Env) {fd fn : Flags} (fileMap : FileMap) (id : String)
    {sd sn : State} (hd : fd.dryRun = true) (hn : fn.dryRun = false)
    (hinc : fd.incremental = fn.incremental) (hs : SameCount sd sn) :
    (∀ sn', processMessage env fn fileMap id sn = .ok sn' →
      ∃ sd', processMessage env fd fileMap id sd = .ok sd' ∧ SameCount sd' sn') ∧
    (∀ o sn', processMessage env fn fileMap id sn = .error (o, sn') →
      (∀ i e, o ≠ .fatalDownload i e) →
      ∃ sd', processMessage env fd fileMap id sd = .error (o, sd') ∧ SameCount sd' sn') := by
  obtain ⟨hrm, hpr⟩ := hs
  constructor
  · intro sn' h
    obtain ⟨hseen, hproc, hcase⟩ := processMessage_ok h
    rw [processMessage_dry hd]
    have hnot : ¬ ((mapGet fileMap id).isNone = false ∧ fd.incremental = true) := by
      rintro ⟨h1, h2⟩
      rcases hcase with ⟨-, -, -, -, hwhy⟩ | ⟨-, hloc, -⟩
      · rcases hwhy with ⟨hd', -⟩ | ⟨-, hi⟩
        · rw [hn] at hd'; cases hd'
        · rw [hinc, hi] at h2; cases h2
      · rw [h1] at hloc; cases hloc
    rw [if_neg hnot]
    exact ⟨_, rfl, by simp [hseen, hrm], by simp [hproc, hpr]⟩
  · intro o sn' h hne
    rcases processMessage_error h with ⟨ho, hi, hloc, hst⟩ | ⟨e, dir', _, ho, -⟩
    · rw [processMessage_dry hd, if_pos ⟨hloc, by rw [hinc]; exact hi⟩]
      subst ho hst
      exact ⟨_, rfl, by simp [hrm], hpr⟩
    · exact absurd ho (hne id e)

theorem processMessages_sim (env : Env) {fd fn : Flags} (fileMap : FileMap)
    (hd : fd.dryRun = true) (hn : fn.dryRun = false)
    (hinc : fd.incremental = fn.incremental) (ids : List String) (sd sn : State)
    (hs : SameCount sd sn) :
    (∀ sn', processMessages env fn fileMap ids sn = .ok sn' →
      ∃ sd', processMessages env fd fileMap ids sd = .ok sd' ∧ SameCount sd' sn') ∧
    (∀ o sn', processMessages env fn fileMap ids sn = .error (o, sn') →
      (∀ i e, o ≠ .fatalDownload i e) →
      ∃ sd', processMessages env fd fileMap ids sd = .error (o, sd') ∧ SameCount sd' sn') := by
  induction ids generalizing sd sn with
  | nil =>
    constructor
    · intro sn' h
      simp only [processMessages, Except.ok.injEq] at h
      subst h
      exact ⟨sd, rfl, hs⟩
    · intro o sn' h
      simp [processMessages] at h
  | cons id ids ih =>
    obtain ⟨hok1, herr1⟩ := processMessage_sim env fileMap id hd hn hinc hs
    constructor
    · intro sn' h
      simp only [processMessages] at h
      split at h
      · simp at h
      · rename_i sn1 h1
        obtain ⟨sd1, hd1, hs1⟩ := hok1 sn1 h1
        obtain ⟨sd', hd', hs'⟩ := (ih sd1 sn1 hs1).1 sn' h
        exact ⟨sd', by simp only [processMessages, hd1, hd'], hs'⟩
    · intro o sn' h hne
      simp only [processMessages] at h
      split at h
      · rename_i res h1
        simp only [Except.error.injEq] at h
        subst h
        obtain ⟨sd', hd', hs'⟩ := herr1 o sn' h1 hne
        exact ⟨sd', by simp only [processMessages, hd'], hs'⟩
      · rename_i sn1 h1
        obtain ⟨sd1, hd1, hs1⟩ := hok1 sn1 h1
        obtain ⟨sd', hd', hs'⟩ := (ih sd1 sn1 hs1).2 o sn' h hne
        exact ⟨sd', by simp only [processMessages, hd1, hd'], hs'⟩

theorem pageLoop_sim {env : Env} {fd fn : Flags} {fileMap : FileMap}
    (hd : fd.dryRun = true) (hn : fn.dryRun = false)
    (hinc : fd.incremental = fn.incremental) (fuel : Nat) (tok : String) (sd sn : State)
    (hs : SameCount sd sn) :
    (∀ sn', pageLoop env fn fileMap fuel tok sn = .ok sn' →
      ∃ sd', pageLoop env fd fileMap fuel tok sd = .ok sd' ∧ SameCount sd' sn') ∧
    (∀ o sn', pageLoop env fn fileMap fuel tok sn = .error (o, sn') →
      (∀ i e, o ≠ .fatalDownload i e) →
      ∃ sd', pageLoop env fd fileMap fuel tok sd = .error (o, sd') ∧ SameCount sd' sn') := by
  induction fuel generalizing tok sd sn with
  | zero =>
    constructor
    · intro sn' h
      simp [pageLoop] at h
    · intro o sn' h _
      simp only [pageLoop, Except.error.injEq, Prod.mk.injEq] at h
      obtain ⟨h1, h2⟩ := h
      subst h1 h2
      exact ⟨sd, rfl, hs⟩
  | succ fuel ih =>
    have hs0 : SameCount { sd with calls := sd.calls ++ [Call.list tok] }
        { sn with calls := sn.calls ++ [Call.list tok] } := hs
    constructor
    · intro sn' h
      simp only [pageLoop] at h ⊢
      split at h
      · simp at h
      · rename_i r hr
        split at h
        · simp at h
        · rename_i sn1 h1
          obtain ⟨sd1, hd1, hs1⟩ := (processMessages_sim env fileMap hd hn hinc r.Messages _ _ hs0).1 sn1 h1
          simp only [hd1]
          split at h
          · rename_i hend
            simp only [Except.ok.injEq] at h
            subst h
            exact ⟨sd1, by simp [hend], hs1⟩
          · rename_i hend
            obtain ⟨sd', hd', hs'⟩ := (ih r.NextPageToken sd1 sn1 hs1).1 sn' h
            exact ⟨sd', by simp [hend, hd'], hs'⟩
    · intro o sn' h hne
      simp only [pageLoop] at h ⊢
      split at h
      · rename_i e he
        simp only [Except.error.injEq, Prod.mk.injEq] at h
        obtain ⟨h1, h2⟩ := h
        subst h1 h2
        exact ⟨_, rfl, hs0⟩
      · rename_i r hr
        split at h
        · rename_i res h1
          simp only [Except.error.injEq] at h
          subst h
          obtain ⟨sd', hd', hs'⟩ :=
            (processMessages_sim env fileMap hd hn hinc r.Messages _ _ hs0).2 o sn' h1 hne
          exact ⟨sd', by simp only [hd'], hs'⟩
        · rename_i sn1 h1
          obtain ⟨sd1, hd1, hs1⟩ := (processMessages_sim env fileMap hd hn hinc r.Messages _ _ hs0).1 sn1 h1
          simp only [hd1]
          split at h
          · simp at h
          · rename_i hend
            obtain ⟨sd', hd', hs'⟩ := (ih r.NextPageToken sd1 sn1 hs1).2 o sn' h hne
            exact ⟨sd', by simp [hend, hd'], hs'⟩

theorem main_dry_effects (env : Env) (flags : Flags) (dir : Dir) (fuel : Nat)
    (hdry : flags.dryRun = true) :
    (main env flags dir fuel).2.dir = dir ∧
      fetched (main env flags dir fuel).2.calls = [] ∧
      removed (main env flags dir fuel).2.calls = [] := by
  cases hrun : main env flags dir fuel with
  | mk o st =>
    show st.dir = dir ∧ fetched st.calls = [] ∧ removed st.calls = []
    have hprog : ∀ {fileMap : FileMap} {ids : List String} {s1 : State},
        Progress env flags fileMap (initState dir) ids s1 →
        s1.dir = dir ∧ fetched s1.calls = [] ∧ removed s1.calls = [] := by
      intro fileMap ids s1 hp
      refine ⟨hp.dry hdry, ?_, ?_⟩
      · rw [hp.fetchedEq]; simp [hdry, initState]
      · rw [hp.removedEq]; rfl
    rcases main_cases hrun with ⟨e, -, -, hst⟩ | ⟨fileMap, hfm, hrest⟩
    · subst hst
      exact ⟨rfl, rfl, rfl⟩
    · rcases hrest with herr | ⟨st1, hst1, hcase⟩
      · obtain ⟨ids, s1, hp, hlast⟩ := pageLoop_error herr
        obtain ⟨h1, h2, h3⟩ := hprog hp
        obtain ⟨hrem, -, -, -, hd, -⟩ := hlast.effects
        obtain ⟨hd1, hd2⟩ := hd hdry
        exact ⟨by rw [hd1, h1], by rw [hd2, h2], by rw [hrem, h3]⟩
      · obtain ⟨pages, -, hp⟩ := pageLoop_ok hst1
        have hst : st = st1 := by
          rcases hcase with ⟨-, -, hst⟩ | ⟨-, hsw⟩ | ⟨-, hsw, -⟩
          · exact hst
          · rw [sweep_dry hdry] at hsw; cases hsw
          · rw [sweep_dry hdry] at hsw; cases hsw; rfl
        rw [hst]
        exact hprog hp

theorem main_sim {env : Env} {fd fn : Flags} {dir : Dir} {fuel : Nat}
    (hd : fd.dryRun = true) (hn : fn.dryRun = false)
    (hinc : fd.incremental = fn.incremental)
    (hok : ∀ id e, (main env fn dir fuel).1 ≠ .fatalDownload id e) :
    (main env fd dir fuel).2.processed = (main env fn dir fuel).2.processed := by
  cases hrun : main env fn dir fuel with
  | mk o sn =>
    rw [hrun] at hok
    simp only at hok
    show (main env fd dir fuel).2.processed = sn.processed
    have hs0 : SameCount (initState dir) (initState dir) := ⟨rfl, rfl⟩
    rcases main_cases hrun with ⟨e, he, -, hst⟩ | ⟨fileMap, hfm, hrest⟩
    · subst hst
      simp [main, readdir, he]
    · rcases hrest with herr | ⟨sn1, hsn1, hcase⟩
      · obtain ⟨sd', hd', hs'⟩ := (pageLoop_sim hd hn hinc fuel "" _ _ hs0).2 o sn herr hok
        simp only [main, hfm, hd']
        exact hs'.2
      · obtain ⟨sd1, hd1, hs1⟩ := (pageLoop_sim hd hn hinc fuel "" _ _ hs0).1 sn1 hsn1
        have hsn : sn.processed = sn1.processed := by
          rcases hcase with ⟨-, -, hst⟩ | ⟨-, hsw⟩ | ⟨-, hsw, -⟩
          · rw [hst]
          · exact (sweep_error hsw).2.2.2.1
          · exact (sweep_ok hsw).2.1
        simp only [main, hfm, hd1, sweep_dry hd]
        rw [hsn]
        cases fd.delete <;> exact hs1.2

/-! ## Failures -/

theorem sweep_calls {env : Env} {flags : Flags} (ks : List String) (st : State) :
    (∀ st', sweep env flags ks st = .ok st' →
      ∃ rs : List String, st'.calls = st.calls ++ rs.map Call.remove) ∧
    (∀ o st', sweep env flags ks st = .error (o, st') →
      ∃ rs : List String, st'.calls = st.calls ++ rs.map Call.remove) := by
  induction ks generalizing st with
  | nil =>
    constructor
    · intro st' h
      simp only [sweep, Except.ok.injEq] at h
      subst h
      exact ⟨[], by simp⟩
    · intro o st' h
      simp [sweep] at h
  | cons k ks ih =>
    have hstep : ∀ st1 : State, st1.calls = st.calls ++ [Call.remove k] →
        (∀ st', sweep env flags ks st1 = .ok st' →
          ∃ rs : List String, st'.calls = st.calls ++ rs.map Call.remove) ∧
        (∀ o st', sweep env flags ks st1 = .error (o, st') →
          ∃ rs : List String, st'.calls = st.calls ++ rs.map Call.remove) := by
      intro st1 h1
      constructor
      · intro st' h
        obtain ⟨rs, hrs⟩ := (ih st1).1 st' h
        exact ⟨k :: rs, by rw [hrs, h1]; simp⟩
      · intro o st' h
        obtain ⟨rs, hrs⟩ := (ih st1).2 o st' h
        exact ⟨k :: rs, by rw [hrs, h1]; simp⟩
    constructor
    · intro st' h
      simp only [sweep] at h
      split at h
      · split at h
        · exact (ih st).1 st' h
        · split at h
          · split at h
            · simp at h
            · split at h
              · simp at h
              · exact (hstep _ rfl).1 st' h
          · exact (ih st).1 st' h
      · exact (ih st).1 st' h
    · intro o st' h
      simp only [sweep] at h
      split at h
      · split at h
        · exact (ih st).2 o st' h
        · split at h
          · split at h
            · simp only [Except.error.injEq, Prod.mk.injEq] at h
              obtain ⟨-, h2⟩ := h
              subst h2
              exact ⟨[k], by simp⟩
            · split at h
              · simp only [Except.error.injEq, Prod.mk.injEq] at h
                obtain ⟨-, h2⟩ := h
                subst h2
                exact ⟨[k], by simp⟩
              · exact (hstep _ rfl).2 o st' h
          · exact (ih st).2 o st' h
      · exact (ih st).2 o st' h

theorem requested_map_remove (rs : List String) : requested (rs.map Call.remove) = [] := by
  induction rs with
  | nil => rfl
  | cons r rs ih => simp [requested, List.filterMap_cons] at ih ⊢

theorem Halted.cases {env : Env} {flags : Flags} {fileMap : FileMap} {st1 st' : State}
    {o : Outcome} (h : Halted env flags fileMap st1 o st') :
    (o = .outOfFuel ∧ st' = st1) ∨
    (∃ t e, o = .fatalList t e ∧ env.list t = .error e ∧
      st'.calls = st1.calls ++ [Call.list t] ∧ st'.dir = st1.dir ∧
      st'.outside = st1.outside) ∨
    (o = .stoppedEarly ∧ st'.calls = st1.calls ∧ st'.dir = st1.dir ∧
      st'.outside = st1.outside) ∨
    (∃ id e, o = .fatalDownload id e ∧
      downloadMessage env (env.os st1.downloads) id st1.dir st1.outside =
        (some e, st'.dir, st'.outside) ∧
      st'.calls = st1.calls ++ [Call.get id] ∧ st'.downloads = st1.downloads + 1) := by
  rcases h with ⟨ho, hst⟩ | ⟨t, e, ho, he, hst⟩ | ⟨id, hpm⟩
  · exact Or.inl ⟨ho, hst⟩
  · subst hst
    exact Or.inr (Or.inl ⟨t, e, ho, he, rfl, rfl, rfl⟩)
  · rcases processMessage_error hpm with ⟨ho, -, -, hst⟩ | ⟨e, dir', out', ho, -, -, hdl, hst⟩
    · subst hst
      exact Or.inr (Or.inr (Or.inl ⟨ho, rfl, rfl, rfl⟩))
    · subst hst
      exact Or.inr (Or.inr (Or.inr ⟨id, e, ho, hdl, rfl, rfl⟩))

/-! ## The early stop of an incremental run -/

theorem processMessages_requested {env : Env} {flags : Flags} {fileMap : FileMap}
    {ids : List String} {st st' : State}
    (h : processMessages env flags fileMap ids st = .ok st') :
    requested st'.calls = requested st.calls := by
  induction ids generalizing st with
  | nil =>
    simp only [processMessages, Except.ok.injEq] at h
    subst h; rfl
  | cons id ids ih =>
    simp only [processMessages] at h
    split at h
    · simp at h
    · rename_i st1 h1
      rw [ih h]
      obtain ⟨-, -, hcase⟩ := processMessage_ok h1
      rcases hcase with ⟨-, -, hcalls, -⟩ | ⟨-, -, hcalls, -⟩
      · rw [hcalls]
      · rw [hcalls]; simp

theorem processMessages_nonlocal (env : Env) (flags : Flags) {fileMap : FileMap}
    (ids : List String) (st : State)
    (hids : ∀ id ∈ ids, (mapGet fileMap id).isNone = true) :
    (∃ id e st', processMessages env flags fileMap ids st = .error (.fatalDownload id e, st')) ∨
    (∃ st', processMessages env flags fileMap ids st = .ok st') := by
  cases hres : processMessages env flags fileMap ids st with
  | ok st' => exact Or.inr ⟨st', rfl⟩
  | error res =>
    obtain ⟨o, st'⟩ := res
    obtain ⟨pre, id, post, s1, hsplit, -, hlast⟩ := processMessages_error hres
    rcases processMessage_error hlast with ⟨-, -, hloc, -⟩ | ⟨e, dir', _, ho, -⟩
    · have := hids id (by rw [hsplit]; simp)
      rw [this] at hloc; cases hloc
    · subst ho
      exact Or.inl ⟨id, e, st', rfl⟩

theorem processMessages_stop (env : Env) {flags : Flags} {fileMap : FileMap}
    (hinc : flags.incremental = true) (pre : List String) (b : String) (post : List String)
    (st : State) (hpre : ∀ id ∈ pre, (mapGet fileMap id).isNone = true)
    (hb : (mapGet fileMap b).isNone = false) :
    (∃ id e st', processMessages env flags fileMap (pre ++ b :: post) st =
        .error (.fatalDownload id e, st')) ∨
    (∃ s1, processMessages env flags fileMap pre st = .ok s1 ∧
      processMessages env flags fileMap (pre ++ b :: post) st =
        .error (.stoppedEarly, { s1 with remoteMails := markSeen s1.remoteMails b })) := by
  induction pre generalizing st with
  | nil =>
    right
    refine ⟨st, rfl, ?_⟩
    simp [processMessages, processMessage, hb, hinc]
  | cons a pre ih =>
    have ha : (mapGet fileMap a).isNone = true := hpre a (by simp)
    have hpre' : ∀ id ∈ pre, (mapGet fileMap id).isNone = true :=
      fun id hid => hpre id (by simp [hid])
    cases h1 : processMessage env flags fileMap a st with
    | error res =>
      obtain ⟨o, st'⟩ := res
      rcases processMessage_error h1 with ⟨-, -, hloc, -⟩ | ⟨e, dir', _, ho, -⟩
      · rw [ha] at hloc; cases hloc
      · subst ho
        left
        exact ⟨a, e, st', by simp [processMessages, h1]⟩
    | ok st1 =>
      rcases ih st1 hpre' with ⟨id, e, st', h⟩ | ⟨s1, h2, h3⟩
      · left
        exact ⟨id, e, st', by simpa [processMessages, h1] using h⟩
      · right
        exact ⟨s1, by simpa [processMessages, h1] using h2,
          by simpa [processMessages, h1] using h3⟩

theorem pageLoop_stop (env : Env) {flags : Flags} {fileMap : FileMap}
    (hinc : flags.incremental = true) (init : List ListMessagesResponse)
    (last : ListMessagesResponse) (pre : List String) (b : String) (post : List String)
    (hlast : last.Messages = pre ++ b :: post)
    (hb : (mapGet fileMap b).isNone = false)
    (fuel : Nat) (tok : String) (st : State)
    (hpages : leadsTo env.list tok init last)
    (hpre : ∀ id ∈ listedIds init ++ pre, (mapGet fileMap id).isNone = true)
    (hfuel : init.length < fuel) :
    (∃ id e st', pageLoop env flags fileMap fuel tok st = .error (.fatalDownload id e, st')) ∨
    (∃ s1, Progress env flags fileMap st (listedIds init ++ pre) s1 ∧
      requested s1.calls = requested st.calls ++ tok :: init.map (fun r => r.NextPageToken) ∧
      pageLoop env flags fileMap fuel tok st =
        .error (.stoppedEarly, { s1 with remoteMails := markSeen s1.remoteMails b })) := by
  induction init generalizing fuel tok st with
  | nil =>
    cases fuel with
    | zero => simp at hfuel
    | succ fuel =>
      simp only [leadsTo] at hpages
      have hpre' : ∀ id ∈ pre, (mapGet fileMap id).isNone = true :=
        fun id hid => hpre id (by simp [hid])
      rcases processMessages_stop env hinc pre b post
          { st with calls := st.calls ++ [Call.list tok] } hpre' hb with
        ⟨id, e, st', h⟩ | ⟨s1, h1, h2⟩
      · left
        exact ⟨id, e, st', by simp only [pageLoop, hpages, hlast, h]⟩
      · right
        refine ⟨s1, ?_, ?_, by simp only [pageLoop, hpages, hlast, h2]⟩
        · simpa [listedIds] using Progress.afterList hpages (processMessages_ok h1)
        · rw [processMessages_requested h1]; simp
  | cons r rs ih =>
    cases fuel with
    | zero => simp at hfuel
    | succ fuel =>
      simp only [leadsTo] at hpages
      obtain ⟨hr, hnext, hrest⟩ := hpages
      have hr' : ∀ id ∈ r.Messages, (mapGet fileMap id).isNone = true :=
        fun id hid => hpre id (by simp [listedIds, hid])
      have hpre' : ∀ id ∈ listedIds rs ++ pre, (mapGet fileMap id).isNone = true := by
        intro id hid
        apply hpre
        simp only [listedIds, List.flatMap_cons, List.append_assoc, List.mem_append] at hid ⊢
        exact Or.inr hid
      rcases processMessages_nonlocal env flags r.Messages
          { st with calls := st.calls ++ [Call.list tok] } hr' with
        ⟨id, e, st', h⟩ | ⟨st1, h1⟩
      · left
        exact ⟨id, e, st', by simp only [pageLoop, hr, h]⟩
      · have hp1 := Progress.afterList hr (processMessages_ok h1)
        have hq1 := processMessages_requested h1
        rcases ih fuel r.NextPageToken st1 hrest hpre' (by simpa using hfuel) with
          ⟨id, e, st', h⟩ | ⟨s1, hp2, hq2, h2⟩
        · left
          exact ⟨id, e, st', by simp only [pageLoop, hr, h1, hnext, if_false, h]⟩
        · right
          refine ⟨s1, ?_, ?_, by simp only [pageLoop, hr, h1, hnext, if_false, h2]⟩
          · simpa [listedIds] using Progress.trans hp1 hp2
          · rw [hq2, hq1]; simp

/-! ## A second run on the directory the first run left -/

theorem pageLoop_seen_mono {env : Env} {flags : Flags} {fileMap : FileMap} {fuel : Nat}
    {tok : String} {st st' : State} {o : Outcome}
    (h : pageLoop env flags fileMap fuel tok st = .ok st' ∨
      pageLoop env flags fileMap fuel tok st = .error (o, st')) :
    ∀ k ∈ st.remoteMails, k ∈ st'.remoteMails := by
  intro k hk
  rcases h with h | h
  · obtain ⟨pages, -, hp⟩ := pageLoop_ok h
    exact (hp.seen k).mpr (Or.inl hk)
  · obtain ⟨ids, s1, hp, hlast⟩ := pageLoop_error h
    exact hlast.effects.2.2.2.1 k ((hp.seen k).mpr (Or.inl hk))

theorem processMessage_local {env : Env} {flags : Flags} {fileMap : FileMap} {id : String}
    (st : State) (hloc : (mapGet fileMap id).isNone = false) :
    processMessage env flags fileMap id st =
      if flags.incremental = true then
        .error (.stoppedEarly, { st with remoteMails := markSeen st.remoteMails id })
      else .ok { st with remoteMails := markSeen st.remoteMails id,
                         processed := st.processed + 1 } := by
  unfold processMessage
  simp [hloc]

theorem processMessages_local (env : Env) (flags : Flags) {fileMap : FileMap}
    (ids : List String) (st : State)
    (hids : ∀ id ∈ ids, (mapGet fileMap id).isNone = false) :
    ∃ st', (processMessages env flags fileMap ids st = .ok st' ∨
        processMessages env flags fileMap ids st = .error (.stoppedEarly, st')) ∧
      st'.dir = st.dir ∧ st'.calls = st.calls := by
  induction ids generalizing st with
  | nil => exact ⟨st, Or.inl rfl, rfl, rfl⟩
  | cons id ids ih =>
    have hid := hids id (by simp)
    by_cases hinc : flags.incremental = true
    · refine ⟨{ st with remoteMails := markSeen st.remoteMails id }, Or.inr ?_, rfl, rfl⟩
      simp [processMessages, processMessage_local st hid, hinc]
    · obtain ⟨st', hres, hdir, hcalls⟩ :=
        ih { st with remoteMails := markSeen st.remoteMails id, processed := st.processed + 1 }
          (fun id' h => hids id' (by simp [h]))
      refine ⟨st', ?_, hdir, hcalls⟩
      simpa [processMessages, processMessage_local st hid, hinc] using hres

theorem second_pass {env env2 : Env} {flags : Flags} {fileMap fileMap2 : FileMap}
    (hlist : env2.list = env.list) (fuel : Nat) (tok : String) (sa sb sa' : State)
    (h1 : pageLoop env flags fileMap fuel tok sa = .ok sa' ∨
      pageLoop env flags fileMap fuel tok sa = .error (.stoppedEarly, sa'))
    (hloc : ∀ k ∈ sa'.remoteMails, (mapGet fileMap2 k).isNone = false) :
    ∃ sb', (pageLoop env2 flags fileMap2 fuel tok sb = .ok sb' ∨
        pageLoop env2 flags fileMap2 fuel tok sb = .error (.stoppedEarly, sb')) ∧
      sb'.dir = sb.dir ∧ fetched sb'.calls = fetched sb.calls ∧
      removed sb'.calls = removed sb.calls := by
  induction fuel generalizing tok sa sb with
  | zero => simp [pageLoop] at h1
  | succ fuel ih =>
    cases henv : env.list tok with
    | error e => simp [pageLoop, henv] at h1
    | ok r =>
      have henv2 : env2.list tok = .ok r := by rw [hlist]; exact henv
      cases hm : processMessages env flags fileMap r.Messages
          { sa with calls := sa.calls ++ [Call.list tok] } with
      | error res =>
        simp only [pageLoop, henv, hm, Except.error.injEq, false_or, reduceCtorEq] at h1
        subst h1
        obtain ⟨pre, id, post, s, hsplit, hp, hlast⟩ := processMessages_error hm
        rcases processMessage_error hlast with ⟨-, hinc, -, hst⟩ | ⟨e, dir', _, ho, -⟩
        · have hidloc : (mapGet fileMap2 id).isNone = false := by
            apply hloc; rw [hst]; simp [mem_markSeen]
          have hpreloc : ∀ x ∈ pre, (mapGet fileMap2 x).isNone = false := by
            intro x hx
            apply hloc; rw [hst]
            simp only [mem_markSeen]
            exact Or.inl ((hp.seen x).mpr (Or.inr hx))
          cases hmsgs : r.Messages with
          | nil => rw [hmsgs] at hsplit; simp at hsplit
          | cons x xs =>
            have hx : (mapGet fileMap2 x).isNone = false := by
              rw [hmsgs] at hsplit
              cases pre with
              | nil =>
                simp only [List.nil_append, List.cons.injEq] at hsplit
                rw [hsplit.1]; exact hidloc
              | cons y ys =>
                simp only [List.cons_append, List.cons.injEq] at hsplit
                rw [hsplit.1]; exact hpreloc y (by simp)
            refine ⟨{ sb with calls := sb.calls ++ [Call.list tok],
                              remoteMails := markSeen sb.remoteMails x }, Or.inr ?_, rfl,
              by simp, by simp⟩
            simp [pageLoop, henv2, hmsgs, processMessages, processMessage_local _ hx, hinc]
        · cases ho
      | ok sa1 =>
        have hp := processMessages_ok hm
        have hmono : ∀ k ∈ sa1.remoteMails, k ∈ sa'.remoteMails := by
          by_cases hend : r.NextPageToken = ""
          · simp only [pageLoop, henv, hm, hend, if_true, Except.ok.injEq, or_false,
              reduceCtorEq] at h1
            subst h1
            exact fun k hk => hk
          · simp only [pageLoop, henv, hm, hend, if_false] at h1
            exact pageLoop_seen_mono h1
        have hall : ∀ id ∈ r.Messages, (mapGet fileMap2 id).isNone = false :=
          fun id hid => hloc id (hmono id ((hp.seen id).mpr (Or.inr hid)))
        obtain ⟨sb1, hres, hdir, hcalls⟩ := processMessages_local env2 flags
          r.Messages { sb with calls := sb.calls ++ [Call.list tok] } hall
        rcases hres with hres | hres
        · by_cases hend : r.NextPageToken = ""
          · refine ⟨sb1, Or.inl ?_, hdir, by rw [hcalls]; simp, by rw [hcalls]; simp⟩
            simp [pageLoop, henv2, hres, hend]
          · simp only [pageLoop, henv, hm, hend, if_false] at h1
            obtain ⟨sb', hres', hdir', hf', hr'⟩ := ih r.NextPageToken sa1 sb1 h1
            refine ⟨sb', ?_, by rw [hdir', hdir], by rw [hf', hcalls]; simp,
              by rw [hr', hcalls]; simp⟩
            simpa [pageLoop, henv2, hres, hend] using hres'
        · refine ⟨sb1, Or.inr ?_, hdir, by rw [hcalls]; simp, by rw [hcalls]; simp⟩
          simp [pageLoop, henv2, hres]

/-! ## A listing that ends is read to its end -/

theorem pageLoop_enough_fuel {env : Env} {flags : Flags} {fileMap : FileMap} {fuel : Nat}
    {tok : String} {st st' : State} {o : Outcome} {pages : List ListMessagesResponse}
    (hpages : listedPages env.list fuel tok = some pages)
    (h : pageLoop env flags fileMap fuel tok st = .error (o, st')) :
    o ≠ .outOfFuel := by
  induction fuel generalizing tok st pages with
  | zero => simp [listedPages] at hpages
  | succ fuel ih =>
    simp only [listedPages] at hpages
    simp only [pageLoop] at h
    split at h
    · simp only [Except.error.injEq, Prod.mk.injEq] at h
      rw [← h.1]; simp
    · rename_i r hr
      rw [hr] at hpages
      simp only at hpages
      split at h
      · rename_i res h1
        simp only [Except.error.injEq] at h
        subst h
        obtain ⟨pre, id, post, s1, -, -, hlast⟩ := processMessages_error h1
        rcases processMessage_error hlast with ⟨ho, -⟩ | ⟨e, d, _, ho, -⟩ <;> rw [ho] <;> simp
      · split at h
        · simp at h
        · rename_i hend
          rw [if_neg hend] at hpages
          cases hrest : listedPages env.list fuel r.NextPageToken with
          | none => simp [hrest] at hpages
          | some rest => exact ih hrest h

theorem main_finishes {env : Env} {flags : Flags} {dir : Dir} {fuel : Nat} {o : Outcome}
    {st : State} {pages : List ListMessagesResponse}
    (hinc : flags.incremental = false)
    (hpages : listedPages env.list fuel "" = some pages)
    (hrun : main env flags dir fuel = (o, st)) (hnofail : o.isFatal = false) :
    o = .finished := by
  rcases main_cases hrun with ⟨e, -, ho, -⟩ | ⟨fileMap, hfm, hrest⟩
  · rw [ho] at hnofail; cases hnofail
  · rcases hrest with herr | ⟨st1, -, hcase⟩
    · exfalso
      have hfuel := pageLoop_enough_fuel hpages herr
      obtain ⟨ids, s1, -, hlast⟩ := pageLoop_error herr
      rcases hlast.cases with ⟨ho, -⟩ | ⟨t, e, ho, -⟩ | ⟨ho, -⟩ | ⟨id, e, ho, -⟩
      · exact hfuel ho
      · rw [ho] at hnofail; cases hnofail
      · rcases hlast with ⟨ho', -⟩ | ⟨t, e, ho', -⟩ | ⟨id, hpm⟩
        · rw [ho] at ho'; cases ho'
        · rw [ho] at ho'; cases ho'
        · rcases processMessage_error hpm with ⟨-, hi, -⟩ | ⟨e, d, _, ho', -⟩
          · rw [hinc] at hi; cases hi
          · rw [ho] at ho'; cases ho'
      · rw [ho] at hnofail; cases hnofail
    · rcases hcase with ⟨-, ho, -⟩ | ⟨-, hsw⟩ | ⟨-, -, ho⟩
      · exact ho
      · obtain ⟨-, ⟨k, e, ho⟩, -⟩ := sweep_error hsw
        rw [ho] at hnofail; cases hnofail
      · exact ho

/-! ## Runs that reach the end of main -/

theorem finished_run_removes_the_orphans (env : Env) (flags : Flags) (dir : Dir)
    (fuel : Nat) (st : State)
    (hdel : flags.delete = true) (hdry : flags.dryRun = false)
    (hrun : main env flags dir fuel = (.finished, st)) :
    ∃ pages, listedPages env.list fuel "" = some pages ∧
      ∀ k, (k ∈ removed st.calls ↔
              k ∈ mapKeys dir ∧ k ∉ listedIds pages ∧ HasPrefix k "." = false) ∧
           (k ∈ mapKeys dir → (k ∈ mapKeys st.dir ↔ k ∉ removed st.calls)) := by
  obtain ⟨fileMap, st1, hfm, hloop, hsw⟩ := main_finished hrun
  obtain ⟨-, hkeys⟩ := readdir_ok hfm
  obtain ⟨pages, hpages, hp⟩ := pageLoop_ok hloop
  rcases hsw with ⟨hd, -⟩ | ⟨-, hsw⟩
  · rw [hdel] at hd; cases hd
  · obtain ⟨hrm, -, -, hrem, hdir⟩ := sweep_ok hsw
    have hrem0 : removed st1.calls = [] := by
      rw [hp.removedEq]; rfl
    simp only [hdry, Bool.false_eq_true, if_false, hrem0, List.nil_append] at hrem hdir
    have hseen : ∀ k, k ∈ st1.remoteMails ↔ k ∈ listedIds pages := by
      intro k; rw [hp.seen]; simp [initState]
    refine ⟨pages, hpages, fun k => ⟨?_, ?_⟩⟩
    · rw [hrem, List.mem_filter, hkeys]
      simp [orphan, hseen]
    · intro hk
      have hk1 : k ∈ mapKeys st1.dir := hp.keep k hk
      rw [← mapGet_isSome_iff, hdir k, ← hrem]
      rw [← mapGet_isSome_iff] at hk1
      by_cases hr : k ∈ removed st.calls
      · simp [hr]
      · simp [hr, hk1]

theorem finished_run_has_the_listed_ids (env : Env) (flags : Flags) (dir : Dir)
    (fuel : Nat) (st : State) (hdry : flags.dryRun = false)
    (hrun : main env flags dir fuel = (.finished, st)) :
    ∃ pages, listedPages env.list fuel "" = some pages ∧
      ∀ id ∈ listedIds pages, landing env.outputPath id = .entry id →
        id ∈ mapKeys st.dir := by
  obtain ⟨fileMap, st1, hfm, hloop, hsw⟩ := main_finished hrun
  obtain ⟨pages, hpages, hp⟩ := pageLoop_ok hloop
  refine ⟨pages, hpages, fun id hid hplain => ?_⟩
  have h1 : id ∈ mapKeys st1.dir := by
    by_cases hloc : (mapGet fileMap id).isNone = true
    · exact hp.got hdry id hid hloc id hplain
    · apply hp.keep
      rw [isNone_fileMap_iff hfm] at hloc
      simpa [initState] using hloc
  rcases hsw with ⟨-, hst⟩ | ⟨-, hsw⟩
  · rw [hst]; exact h1
  · obtain ⟨-, -, -, -, hdir⟩ := sweep_ok hsw
    have hseen : id ∈ st1.remoteMails := (hp.seen id).mpr (Or.inr hid)
    rw [← mapGet_isSome_iff, hdir id]
    rw [← mapGet_isSome_iff] at h1
    simp [hdry, List.mem_filter, orphan, hseen, h1]

theorem finished_run_fetches_per_occurrence (env : Env) (flags : Flags) (dir : Dir)
    (fuel : Nat) (st : State) (hdry : flags.dryRun = false)
    (hrun : main env flags dir fuel = (.finished, st)) :
    ∃ pages, listedPages env.list fuel "" = some pages ∧
      fetched st.calls = (listedIds pages).filter (fun id => decide (id ∉ mapKeys dir)) ∧
      (∀ id, id ∉ mapKeys dir → (fetched st.calls).count id = (listedIds pages).count id) ∧
      st.processed = (listedIds pages).length := by
  obtain ⟨fileMap, st1, hfm, hloop, hsw⟩ := main_finished hrun
  obtain ⟨pages, hpages, hp⟩ := pageLoop_ok hloop
  have hf1 : fetched st1.calls =
      (listedIds pages).filter (fun id => decide (id ∉ mapKeys dir)) := by
    rw [hp.fetchedEq, filter_isNone_fileMap hfm]
    simp [hdry, initState]
  have hp1 : st1.processed = (listedIds pages).length := by
    rw [hp.processed]; simp [initState]
  have hst : fetched st.calls = fetched st1.calls ∧ st.processed = st1.processed := by
    rcases hsw with ⟨-, hst⟩ | ⟨-, hsw⟩
    · rw [hst]; exact ⟨rfl, rfl⟩
    · obtain ⟨-, h2, h3, -⟩ := sweep_ok hsw
      exact ⟨h3, h2⟩
  refine ⟨pages, hpages, by rw [hst.1, hf1], ?_, by rw [hst.2, hp1]⟩
  intro id hid
  rw [hst.1, hf1]
  exact List.count_filter (by simpa using hid)

/-! ## Plain file names -/

theorem splitAux_append_sep (a b cur : List Char) :
    splitAux (a ++ '/' :: b) cur = splitAux a cur ++ splitAux b [] := by
  induction a generalizing cur with
  | nil => simp [splitAux]
  | cons c cs ih =>
    by_cases hc : c = '/'
    · subst hc
      have := ih []
      simp only [List.cons_append, splitAux, if_true]
      exact congrArg _ this
    · have := ih (c :: cur)
      simp only [List.cons_append, splitAux, hc, if_false]
      exact this

theorem splitAux_no_sep (b cur : List Char) (hb : '/' ∉ b) :
    splitAux b cur = [cur.reverse ++ b] := by
  induction b generalizing cur with
  | nil => simp [splitAux]
  | cons c cs ih =>
    have hc : c ≠ '/' := fun h => hb (by simp [h])
    have hcs : '/' ∉ cs := fun h => hb (by simp [h])
    simp [splitAux, hc, ih _ hcs]

theorem cleanElems_append_fileName (a b : List Char) (ha : a ≠ [])
    (hb : '/' ∉ b) (h0 : b ≠ []) (h1 : b ≠ ['.']) (h2 : b ≠ ['.', '.']) :
    cleanElems (a ++ '/' :: b) = b :: cleanElems a := by
  have hhead : (a ++ '/' :: b).head? = a.head? := by
    cases a with
    | nil => exact absurd rfl ha
    | cons c cs => rfl
  have hsplit : splitAux (a ++ '/' :: b) [] = splitAux a [] ++ [b] := by
    rw [splitAux_append_sep, splitAux_no_sep b [] hb]
    simp
  unfold cleanElems
  rw [hhead, hsplit, List.foldl_append]
  simp [cleanStep, h0, h1, h2]

theorem landing_fileName (outputPath id : String) (hpath : outputPath ≠ "")
    (hid : isFileName id = true) : landing outputPath id = .entry id := by
  simp only [isFileName, Bool.and_eq_true, bne_iff_ne, ne_eq, Bool.not_eq_true',
    List.contains_eq_any_beq, List.any_eq_false, beq_iff_eq] at hid
  obtain ⟨⟨⟨h0, hsep⟩, h1⟩, h2⟩ := hid
  have hsep' : '/' ∉ id.data := fun h => hsep '/' h rfl
  have ha : outputPath.data ≠ [] := by
    intro h
    apply hpath
    cases outputPath
    simp_all
  have hdata : (outputPath ++ "/" ++ id).data = outputPath.data ++ '/' :: id.data := by
    simp [String.data_append]
  have hp := cleanElems_append_fileName outputPath.data id.data ha hsep' h0 h1 h2
  unfold landing
  rw [if_neg hpath]
  simp only [hdata, hp]
  have hnot : ¬ (id.data :: cleanElems outputPath.data).isSuffixOf
      (cleanElems outputPath.data) = true := by
    rw [List.isSuffixOf_iff_suffix]
    intro hsuf
    have := hsuf.length_le
    simp at this
  simp [hnot, h2]

/-! ## The claims -/

/-- C1: let the listing end (its pages are `pages`) and let a run with delete
on, incremental off and dry-run off meet no failing operation. Then the run
reaches the end of `main`, the names handed to `os.Remove` are exactly the
names of the local snapshot that occur in no listed page and do not begin with
a dot, and a name of the snapshot is missing from the directory afterwards
exactly when it was removed. With local `{A, B, C, .lock}` and remote `{A, C}`
exactly `B` is removed and `A`, `C` and `.lock` are kept. -/
theorem sweep_removes_exactly_the_orphans (env : Env) (flags : Flags) (dir : Dir)
    (fuel : Nat) (pages : List ListMessagesResponse) (o : Outcome) (st : State)
    (hdel : flags.delete = true) (hinc : flags.incremental = false)
    (hdry : flags.dryRun = false)
    (hpages : listedPages env.list fuel "" = some pages)
    (hrun : main env flags dir fuel = (o, st)) (hnofail : o.isFatal = false) :
    (o = .finished ∧
      ∀ k, (k ∈ removed st.calls ↔
              k ∈ mapKeys dir ∧ k ∉ listedIds pages ∧ HasPrefix k "." = false) ∧
           (k ∈ mapKeys dir → (k ∈ mapKeys st.dir ↔ k ∉ removed st.calls))) ∧
    (removed (main (sampleEnv [("", ⟨["A", "C"], ""⟩)])
        { noFlags with delete := true } sampleDir 1).2.calls = ["B"] ∧
      mapKeys (main (sampleEnv [("", ⟨["A", "C"], ""⟩)])
        { noFlags with delete := true } sampleDir 1).2.dir = ["A", "C", ".lock"]) := by
  refine ⟨?_, by decide, by decide⟩
  have ho := main_finishes hinc hpages hrun hnofail
  subst ho
  obtain ⟨pages', hpages', h⟩ := finished_run_removes_the_orphans env flags dir fuel st hdel hdry hrun
  rw [hpages] at hpages'
  cases hpages'
  exact ⟨rfl, h⟩

/-- C1, at the example of the specification: local `{A, B, C, .lock}`, remote
`{A, C}`. -/
theorem sweep_removes_exactly_the_orphans_witness :
    ∃ st, main (sampleEnv [("", ⟨["A", "C"], ""⟩)]) { noFlags with delete := true }
        sampleDir 1 = (.finished, st) ∧
      listedPages (sampleEnv [("", ⟨["A", "C"], ""⟩)]).list 1 "" = some [⟨["A", "C"], ""⟩] ∧
      removed st.calls = ["B"] ∧ mapKeys st.dir = ["A", "C", ".lock"] ∧
      ∀ k, (k ∈ removed st.calls ↔
              k ∈ mapKeys sampleDir ∧ k ∉ listedIds [⟨["A", "C"], ""⟩] ∧
                HasPrefix k "." = false) ∧
           (k ∈ mapKeys sampleDir → (k ∈ mapKeys st.dir ↔ k ∉ removed st.calls)) :=
  ⟨(main (sampleEnv [("", ⟨["A", "C"], ""⟩)]) { noFlags with delete := true } sampleDir 1).2,
   by decide, by decide, by decide, by decide,
   (sweep_removes_exactly_the_orphans (sampleEnv [("", ⟨["A", "C"], ""⟩)])
      { noFlags with delete := true } sampleDir 1 [⟨["A", "C"], ""⟩] .finished _
      rfl rfl rfl (by decide) (by decide) rfl).1.2⟩

/-- C2 as stated fails for an identifier that is not the name of its own final
path. With local `{A}`, remote `[x/../A]` and delete on, the message is
renamed to `filepath.Join(outputPath, "x/../A")`, the entry `A`, which the
sweep then removes because `A` was not listed: the directory ends empty. With
remote `[b/]` the message is stored as the entry `b`, and `b/` is no entry. -/
theorem listed_id_is_not_local_when_its_path_is_cleaned :
    (main (sampleEnv [("", ⟨["x/../A"], ""⟩)]) { noFlags with delete := true }
        [("A", sampleFile)] 1).1 = .finished ∧
    listedPages (sampleEnv [("", ⟨["x/../A"], ""⟩)]).list 1 "" = some [⟨["x/../A"], ""⟩] ∧
    (main (sampleEnv [("", ⟨["x/../A"], ""⟩)]) { noFlags with delete := true }
        [("A", sampleFile)] 1).2.dir = [] ∧
    (main (sampleEnv [("", ⟨["b/"], ""⟩)]) noFlags [] 1).1 = .finished ∧
    mapKeys (main (sampleEnv [("", ⟨["b/"], ""⟩)]) noFlags [] 1).2.dir = ["b"] := by
  decide

/-- C2, amended: let the listing end (its pages are `pages`) and let a run with
incremental off and dry-run off, delete on or off, meet no failing operation.
Then the run reaches the end of `main`, and every listed identifier that is
the name of its own final path (`filepath.Join(outputPath, id)` is the entry
`id` of `outputPath`) is the name of a file of the output directory
afterwards. -/
theorem listed_ids_are_local_afterwards (env : Env) (flags : Flags) (dir : Dir)
    (fuel : Nat) (pages : List ListMessagesResponse) (o : Outcome) (st : State)
    (hinc : flags.incremental = false) (hdry : flags.dryRun = false)
    (hpages : listedPages env.list fuel "" = some pages)
    (hrun : main env flags dir fuel = (o, st)) (hnofail : o.isFatal = false) :
    o = .finished ∧
    ∀ id ∈ listedIds pages, landing env.outputPath id = .entry id → id ∈ mapKeys st.dir := by
  have ho := main_finishes hinc hpages hrun hnofail
  subst ho
  obtain ⟨pages', hpages', h⟩ := finished_run_has_the_listed_ids env flags dir fuel st hdry hrun
  rw [hpages] at hpages'
  cases hpages'
  exact ⟨rfl, h⟩

/-- C2 amended, on two pages `[A, D]`, `[B, E, D]` with `A` and `Z` local and
delete on: afterwards `A`, `B`, `D` and `E` are local. -/
theorem listed_ids_are_local_afterwards_witness :
    ∃ st, main (sampleEnv twoPages) { noFlags with delete := true }
        [("A", sampleFile), ("Z", sampleFile)] 2 = (.finished, st) ∧
      listedPages (sampleEnv twoPages).list 2 "" =
        some [⟨["A", "D"], "p2"⟩, ⟨["B", "E", "D"], ""⟩] ∧
      mapKeys st.dir = ["D", "E", "B", "A"] ∧
      landing (sampleEnv twoPages).outputPath "D" = .entry "D" ∧
      ∀ id ∈ listedIds [⟨["A", "D"], "p2"⟩, ⟨["B", "E", "D"], ""⟩],
        landing (sampleEnv twoPages).outputPath id = .entry id → id ∈ mapKeys st.dir :=
  ⟨(main (sampleEnv twoPages) { noFlags with delete := true }
      [("A", sampleFile), ("Z", sampleFile)] 2).2,
   by decide, by decide, by decide, by decide,
   (listed_ids_are_local_afterwards (sampleEnv twoPages) { noFlags with delete := true }
     [("A", sampleFile), ("Z", sampleFile)] 2 [⟨["A", "D"], "p2"⟩, ⟨["B", "E", "D"], ""⟩]
     .finished _ rfl rfl (by decide) (by decide) rfl).2⟩

/-- C10 as stated fails: with the identifier `A` absent locally and listed on
two pages, a non-incremental, non-dry run requests `A` twice. -/
theorem duplicate_id_is_fetched_twice :
    (main (sampleEnv [("", ⟨["A"], "p2"⟩), ("p2", ⟨["A"], ""⟩)]) noFlags [] 2).1 = .finished ∧
    fetched (main (sampleEnv [("", ⟨["A"], "p2"⟩), ("p2", ⟨["A"], ""⟩)]) noFlags [] 2).2.calls
      = ["A", "A"] ∧
    (main (sampleEnv [("", ⟨["A"], "p2"⟩), ("p2", ⟨["A"], ""⟩)]) noFlags [] 2).2.processed
      = 2 := by
  decide

/-- C10, amended: let the listing end (its pages are `pages`) and let a run
with incremental off and dry-run off meet no failing operation. Then the run
reaches the end of `main`, and the identifiers requested from the service are,
in listing order, the occurrences of the listed identifiers that are absent
from the local snapshot: an identifier absent from the snapshot is fetched once
per occurrence (the snapshot is not updated by a download), and every
occurrence is counted. -/
theorem absent_id_is_fetched_at_every_occurrence (env : Env) (flags : Flags) (dir : Dir)
    (fuel : Nat) (pages : List ListMessagesResponse) (o : Outcome) (st : State)
    (hinc : flags.incremental = false) (hdry : flags.dryRun = false)
    (hpages : listedPages env.list fuel "" = some pages)
    (hrun : main env flags dir fuel = (o, st)) (hnofail : o.isFatal = false) :
    o = .finished ∧
    fetched st.calls = (listedIds pages).filter (fun id => decide (id ∉ mapKeys dir)) ∧
    (∀ id, id ∉ mapKeys dir → (fetched st.calls).count id = (listedIds pages).count id) ∧
    st.processed = (listedIds pages).length := by
  have ho := main_finishes hinc hpages hrun hnofail
  subst ho
  obtain ⟨pages', hpages', h⟩ := finished_run_fetches_per_occurrence env flags dir fuel st hdry hrun
  rw [hpages] at hpages'
  cases hpages'
  exact ⟨rfl, h⟩

/-- C10 amended, on the two pages `[A]`, `[A]` with nothing local. -/
theorem absent_id_is_fetched_at_every_occurrence_witness :
    ∃ st, main (sampleEnv [("", ⟨["A"], "p2"⟩), ("p2", ⟨["A"], ""⟩)]) noFlags [] 2
        = (.finished, st) ∧
      fetched st.calls = ["A", "A"] ∧
      fetched st.calls = (listedIds [⟨["A"], "p2"⟩, ⟨["A"], ""⟩]).filter
        (fun id => decide (id ∉ mapKeys ([] : Dir))) ∧
      (∀ id, id ∉ mapKeys ([] : Dir) →
        (fetched st.calls).count id = (listedIds [⟨["A"], "p2"⟩, ⟨["A"], ""⟩]).count id) ∧
      st.processed = (listedIds [⟨["A"], "p2"⟩, ⟨["A"], ""⟩]).length :=
  ⟨(main (sampleEnv [("", ⟨["A"], "p2"⟩), ("p2", ⟨["A"], ""⟩)]) noFlags [] 2).2,
   by decide, by decide,
   (absent_id_is_fetched_at_every_occurrence
     (sampleEnv [("", ⟨["A"], "p2"⟩), ("p2", ⟨["A"], ""⟩)]) noFlags [] 2
     [⟨["A"], "p2"⟩, ⟨["A"], ""⟩] .finished _ rfl rfl (by decide) (by decide) rfl).2⟩

/-- C7 as stated fails when the final path is the temporary file itself: with
`id = "gmbackup1"` (or `"./gmbackup1"`) and the temporary file created as
`gmbackup1`, a `Write` that fails after one byte leaves that byte at
`filepath.Join(outputPath, id)`, where no file was before. -/
theorem partial_file_under_final_name_when_id_is_temp_name :
    downloadMessage (sampleEnv []) (writeFailsScript "1") "gmbackup1" [] [] =
      (some (.write "no space left on device"),
        [("gmbackup1", { content := [104], mode := 0o600, mtime := 1700000000000000000 })],
        []) ∧
    (DlError.write "no space left on device").beforeRename = true ∧
    finalFile (sampleEnv []).outputPath "gmbackup1" [] [] = none ∧
    finalFile (sampleEnv []).outputPath "gmbackup1"
        (downloadMessage (sampleEnv []) (writeFailsScript "1") "gmbackup1" [] []).2.1
        (downloadMessage (sampleEnv []) (writeFailsScript "1") "gmbackup1" [] []).2.2
      = some { content := [104], mode := 0o600, mtime := 1700000000000000000 } ∧
    finalFile (sampleEnv []).outputPath "./gmbackup1"
        (downloadMessage (sampleEnv []) (writeFailsScript "1") "./gmbackup1" [] []).2.1
        (downloadMessage (sampleEnv []) (writeFailsScript "1") "./gmbackup1" [] []).2.2
      = some { content := [104], mode := 0o600, mtime := 1700000000000000000 } := by
  decide

/-- C7, amended: for a destination `outputPath` that is not empty (with an
empty one `os.CreateTemp` uses the system directory for temporary files), when
`downloadMessage` fails at `Write`, `Chmod`, `Chtimes` or `Rename`, every entry
of the output directory other than the temporary name and every file outside
it is unchanged by the call, so the file at `filepath.Join(outputPath, id)` is
unchanged whenever that path is not the temporary file; the temporary name did
not exist before and now holds a prefix of the decoded bytes. -/
theorem failed_download_touches_only_the_temp_name (env : Env) (os : OsScript)
    (id : String) (dir outside dir' outside' : Dir) (e : DlError)
    (h : downloadMessage env os id dir outside = (some e, dir', outside'))
    (he : e.beforeRename = true) :
    (∀ k, k ≠ tempName os → mapGet dir' k = mapGet dir k) ∧
    outside' = outside ∧
    (env.outputPath ≠ "" → landing env.outputPath id ≠ .entry (tempName os) →
      finalFile env.outputPath id dir' outside' = finalFile env.outputPath id dir outside) ∧
    mapGet dir (tempName os) = none ∧
    ∃ msg raw f n, env.get id = .ok msg ∧ base64URLDecode msg.Raw = .ok raw ∧
      mapGet dir' (tempName os) = some f ∧ f.content = raw.take n := by
  rcases downloadMessage_err h with ⟨hb, -, -⟩ |
    ⟨-, hfresh, hout, msg, raw, f, hget, hdec, ⟨n, hn⟩, hdir⟩ | ⟨hc, -⟩
  · rw [he] at hb; cases hb
  · have hframe : ∀ k, k ≠ tempName os → mapGet dir' k = mapGet dir k := by
      intro k hk
      rw [hdir, mapGet_mapSet]
      simp [hk]
    refine ⟨hframe, hout, ?_, hfresh, msg, raw, f, n, hget, hdec, ?_, hn⟩
    · intro _ hne
      unfold finalFile
      cases hl : landing env.outputPath id with
      | directory => rfl
      | elsewhere path => simp only [hout]
      | entry name =>
        simp only
        apply hframe
        intro hname
        rw [hl, hname] at hne
        exact hne rfl
    · rw [hdir, mapGet_mapSet]
      simp
  · cases e <;> simp [DlError.beforeRename, DlError.atClose] at he hc

/-- C7 amended, on a `Write` that fails after one byte while `m1` is fetched
into a directory that holds `A`. -/
theorem failed_download_touches_only_the_temp_name_witness :
    (sampleEnv []).outputPath ≠ "" ∧
    downloadMessage (sampleEnv []) (writeFailsScript "1") "m1" [("A", sampleFile)] [] =
      (some (.write "no space left on device"),
        [("gmbackup1", { content := [104], mode := 0o600, mtime := 1700000000000000000 }),
         ("A", sampleFile)], []) ∧
    landing (sampleEnv []).outputPath "m1" ≠ .entry (tempName (writeFailsScript "1")) ∧
    finalFile (sampleEnv []).outputPath "m1"
        [("gmbackup1", { content := [104], mode := 0o600, mtime := 1700000000000000000 }),
         ("A", sampleFile)] [] =
      finalFile (sampleEnv []).outputPath "m1" [("A", sampleFile)] [] :=
  ⟨by decide, by decide, by decide,
   (failed_download_touches_only_the_temp_name (sampleEnv []) (writeFailsScript "1") "m1"
     [("A", sampleFile)] [] _ _ (.write "no space left on device") (by decide)
     rfl).2.2.1 (by decide) (by decide)⟩

/-- C8 as stated fails for dates outside the range of `os.Chtimes`. For the
internal date -62135596800000, `time.UnixMilli` gives the zero `Time`, which
`os.Chtimes` takes as "leave unchanged": the modification time stays the time
of the write, 1700000000000000000 here. For 9223372036855 the nanoseconds
since the epoch do not fit the `int64` of `UnixNano`, and the modification
time is not that date. -/
theorem mtime_is_not_the_internal_date_outside_the_range :
    downloadMessage (envDated (-62135596800000)) (okScript 0) "m1" [] [] =
      (none, [("m1", { content := [104, 105], mode := 0o400,
                       mtime := 1700000000000000000 })], []) ∧
    (downloadMessage (envDated 9223372036855) (okScript 0) "m1" [] []).1 = none ∧
    finalFile (envDated 9223372036855).outputPath "m1"
        (downloadMessage (envDated 9223372036855) (okScript 0) "m1" [] []).2.1
        (downloadMessage (envDated 9223372036855) (okScript 0) "m1" [] []).2.2 ≠
      some { content := [104, 105], mode := 0o400, mtime := 9223372036855 * 1000000 } := by
  decide

/-- C8, amended: when `downloadMessage` returns without error for a message
with payload `Raw` and internal date `t` between -9223372036854 and
9223372036854 milliseconds (the years 1678 to 2262), the file at
`filepath.Join(outputPath, id)` holds the decoded bytes of `Raw`, has
permission 0400 and modification time `t` milliseconds (`t * 1000000`
nanoseconds) after the epoch, whatever the clock `os.now` was during the
download. -/
theorem downloaded_file_has_content_mode_and_date (env : Env) (os : OsScript)
    (id : String) (dir outside dir' outside' : Dir) (msg : Message) (raw : Bytes)
    (hget : env.get id = .ok msg) (hdec : base64URLDecode msg.Raw = .ok raw)
    (hlo : -9223372036854 ≤ msg.InternalDate) (hhi : msg.InternalDate ≤ 9223372036854)
    (h : downloadMessage env os id dir outside = (none, dir', outside')) :
    finalFile env.outputPath id dir' outside' =
      some { content := raw, mode := 0o400, mtime := msg.InternalDate * 1000000 } := by
  obtain ⟨msg', raw', hget', hdec', -, hren⟩ := downloadMessage_ok h
  rw [hget] at hget'
  cases hget'
  rw [hdec] at hdec'
  cases hdec'
  rw [finalFile_renameTo_same hren]
  have hz : msg.InternalDate ≠ zeroTimeMilli := by
    unfold zeroTimeMilli; omega
  have hw : wrapInt64 (msg.InternalDate * 1000000) = msg.InternalDate * 1000000 := by
    unfold wrapInt64
    have h1 : (0 : Int) ≤ msg.InternalDate * 1000000 + 2 ^ 63 := by omega
    have h2 : msg.InternalDate * 1000000 + 2 ^ 63 < 2 ^ 64 := by omega
    rw [Int.emod_eq_of_lt h1 h2]
    omega
  simp [storedFile, chtimesMtime, hz, hw]

/-- C8 amended, on the message "hi" dated 1500000000000 fetched at
1700000000000. -/
theorem downloaded_file_has_content_mode_and_date_witness :
    (sampleEnv []).get "m1" = .ok { Raw := "aGk=", InternalDate := 1500000000000 } ∧
    base64URLDecode "aGk=" = .ok [104, 105] ∧
    downloadMessage (sampleEnv []) (okScript 0) "m1" [("A", sampleFile)] [] =
      (none, [("m1", { content := [104, 105], mode := 0o400,
                       mtime := 1500000000000000000 }),
              ("A", sampleFile)], []) ∧
    finalFile (sampleEnv []).outputPath "m1"
        [("m1", { content := [104, 105], mode := 0o400, mtime := 1500000000000000000 }),
         ("A", sampleFile)] [] =
      some { content := [104, 105], mode := 0o400, mtime := 1500000000000 * 1000000 } :=
  ⟨rfl, rfl, by decide,
   downloaded_file_has_content_mode_and_date (sampleEnv []) (okScript 0) "m1"
     [("A", sampleFile)] [] _ _ { Raw := "aGk=", InternalDate := 1500000000000 } [104, 105]
     rfl rfl (by decide) (by decide) (by decide)⟩

/-- C4: the code at the failing input. With incremental and delete on, local
`{B}` and remote `[A]`, no listed identifier is local, so the page loop ends
by `break` and the sweep, which is gated on `delete` alone, removes `B`: a run
with incremental on has performed the deletion sweep. -/
theorem incremental_run_sweeps_when_nothing_listed_is_local :
    main (sampleEnv [("", ⟨["A"], ""⟩)])
        { noFlags with delete := true, incremental := true } [("B", sampleFile)] 1 =
      (.finished,
        { dir := [("A", { content := [104, 105], mode := 0o400,
                          mtime := 1500000000000000000 })],
          outside := [],
          remoteMails := ["A"], processed := 1,
          calls := [Call.list "", Call.get "A", Call.remove "B"], downloads := 1 }) ∧
    removed (main (sampleEnv [("", ⟨["A"], ""⟩)])
        { noFlags with delete := true, incremental := true } [("B", sampleFile)] 1).2.calls =
      ["B"] := by
  decide

/-- C5: for every setting of delete and incremental, the run with dry-run on
leaves the output directory as it was, requests no message and removes no
file; and when the run with dry-run off does not end in a failed download, the
two runs end with the same `processed` (a failing removal does not change the
count either). -/
theorem dry_run_changes_nothing_and_counts_the_same (env : Env) (flags : Flags)
    (dir : Dir) (fuel : Nat) :
    (main env { flags with dryRun := true } dir fuel).2.dir = dir ∧
    fetched (main env { flags with dryRun := true } dir fuel).2.calls = [] ∧
    removed (main env { flags with dryRun := true } dir fuel).2.calls = [] ∧
    ((∀ id e, (main env { flags with dryRun := false } dir fuel).1 ≠ .fatalDownload id e) →
      (main env { flags with dryRun := true } dir fuel).2.processed =
        (main env { flags with dryRun := false } dir fuel).2.processed) := by
  obtain ⟨h1, h2, h3⟩ :=
    main_dry_effects env { flags with dryRun := true } dir fuel rfl
  exact ⟨h1, h2, h3, fun hok => main_sim rfl rfl rfl hok⟩

/-- C5, on two pages `[A, D]`, `[B, E, D]` with `A` and `Z` local and delete
on: the run with dry-run off downloads and removes, the dry run does neither,
and both count five messages. -/
theorem dry_run_changes_nothing_and_counts_the_same_witness :
    (main (sampleEnv twoPages) { noFlags with delete := true, dryRun := false }
        [("A", sampleFile), ("Z", sampleFile)] 2).2.processed = 5 ∧
    fetched (main (sampleEnv twoPages) { noFlags with delete := true, dryRun := false }
        [("A", sampleFile), ("Z", sampleFile)] 2).2.calls = ["D", "B", "E", "D"] ∧
    (main (sampleEnv twoPages) { noFlags with delete := true, dryRun := true }
        [("A", sampleFile), ("Z", sampleFile)] 2).2.dir = [("A", sampleFile), ("Z", sampleFile)] ∧
    (main (sampleEnv twoPages) { noFlags with delete := true, dryRun := true }
        [("A", sampleFile), ("Z", sampleFile)] 2).2.processed =
      (main (sampleEnv twoPages) { noFlags with delete := true, dryRun := false }
        [("A", sampleFile), ("Z", sampleFile)] 2).2.processed :=
  ⟨by decide, by decide,
   (dry_run_changes_nothing_and_counts_the_same (sampleEnv twoPages)
      { noFlags with delete := true } [("A", sampleFile), ("Z", sampleFile)] 2).1,
   (dry_run_changes_nothing_and_counts_the_same (sampleEnv twoPages)
      { noFlags with delete := true } [("A", sampleFile), ("Z", sampleFile)] 2).2.2.2
     (by
       intro id e h
       have h2 : (main (sampleEnv twoPages) { noFlags with delete := true, dryRun := false }
           [("A", sampleFile), ("Z", sampleFile)] 2).1 = .finished := by decide
       have h3 := h2.symm.trans h
       cases h3)⟩

/-- C9: in every run, a list request that the service answers with an error
and a fetch whose message the service does not return or whose payload does
not decode end the run with that error; a run that ends with a list error or a
download error made that failing call last (nothing is fetched, listed or
removed after it), never called `os.Remove`, and every message fetched before
is in place: the file at its final path is a complete stored message, its own
unless a fetch of another identifier with the same final path replaced it. -/
theorem failure_ends_the_run (env : Env) (flags : Flags) (dir : Dir) (fuel : Nat)
    (o : Outcome) (st : State) (hrun : main env flags dir fuel = (o, st)) :
    (∀ t e, t ∈ requested st.calls → env.list t = .error e → o = .fatalList t e) ∧
    (∀ id, id ∈ fetched st.calls →
      (∀ msg raw, env.get id = .ok msg → base64URLDecode msg.Raw ≠ .ok raw) →
      ∃ e, o = .fatalDownload id e) ∧
    (∀ t e, o = .fatalList t e →
      env.list t = .error e ∧ st.calls.getLast? = some (Call.list t) ∧
      removed st.calls = [] ∧
      ∀ id ∈ fetched st.calls, Stored env st.dir st.outside (fetched st.calls) id) ∧
    (∀ id e, o = .fatalDownload id e →
      st.calls.getLast? = some (Call.get id) ∧ removed st.calls = [] ∧
      (∃ d out, downloadMessage env (env.os (st.downloads - 1)) id d out =
        (some e, st.dir, st.outside)) ∧
      ∀ id' ∈ (fetched st.calls).dropLast,
        Stored env st.dir st.outside (fetched st.calls) id') := by
  have hfetchOk : ∀ {d out : Dir} {l : List String} {id : String}, Stored env d out l id →
      (∀ msg raw, env.get id = .ok msg → base64URLDecode msg.Raw ≠ .ok raw) → False := by
    intro d out l id hs hfail
    obtain ⟨⟨msg, raw, hget, hdec⟩, -⟩ := hs
    exact hfail msg raw hget hdec
  rcases main_cases hrun with ⟨e, -, ho, hst⟩ | ⟨fileMap, hfm, hrest⟩
  · subst ho hst
    simp [initState]
  · have hinit : ∀ {ids : List String} {s1 : State},
        Progress env flags fileMap (initState dir) ids s1 →
        (∀ t ∈ requested s1.calls, ∃ r, env.list t = .ok r) ∧
        (∀ id ∈ fetched s1.calls, Stored env s1.dir s1.outside (fetched s1.calls) id) ∧
        removed s1.calls = [] := by
      intro ids s1 hp
      refine ⟨hp.listOk (by simp [initState]), hp.stored (by simp [initState]), ?_⟩
      rw [hp.removedEq]; rfl
    rcases hrest with herr | ⟨st1, hst1, hcase⟩
    · obtain ⟨ids, s1, hp, hlast⟩ := pageLoop_error herr
      obtain ⟨hlistOk, hstored, hrem⟩ := hinit hp
      rcases hlast.cases with ⟨ho, hst⟩ | ⟨t, e, ho, he, hcalls, hdir, hout⟩ |
        ⟨ho, hcalls, hdir, hout⟩ | ⟨id, e, ho, hdl, hcalls, hdown⟩
      · subst ho hst
        refine ⟨?_, ?_, by simp, by simp⟩
        · intro t e ht he
          obtain ⟨r, hr⟩ := hlistOk t ht
          rw [hr] at he; cases he
        · intro id hid hfail
          exact (hfetchOk (hstored id hid) hfail).elim
      · subst ho
        refine ⟨?_, ?_, ?_, by simp⟩
        · intro t' e' ht' he'
          rw [hcalls] at ht'
          simp only [requested_append, requested_list, List.mem_append,
            List.mem_singleton] at ht'
          rcases ht' with h | h
          · obtain ⟨r, hr⟩ := hlistOk t' h
            rw [hr] at he'; cases he'
          · subst h
            rw [he] at he'; cases he'; rfl
        · intro id hid hfail
          rw [hcalls] at hid
          simp only [fetched_append, fetched_list, List.append_nil] at hid
          exact (hfetchOk (hstored id hid) hfail).elim
        · intro t' e' ho'
          cases ho'
          refine ⟨he, by rw [hcalls]; simp, by rw [hcalls]; simp [hrem], ?_⟩
          intro id hid
          rw [hcalls] at hid ⊢
          simp only [fetched_append, fetched_list, List.append_nil] at hid ⊢
          rw [hdir, hout]
          exact hstored id hid
      · subst ho
        refine ⟨?_, ?_, by simp, by simp⟩
        · intro t e ht he
          rw [hcalls] at ht
          obtain ⟨r, hr⟩ := hlistOk t ht
          rw [hr] at he; cases he
        · intro id hid hfail
          rw [hcalls] at hid
          exact (hfetchOk (hstored id hid) hfail).elim
      · subst ho
        refine ⟨?_, ?_, by simp, ?_⟩
        · intro t e' ht he
          rw [hcalls] at ht
          simp only [requested_append, requested_get, List.append_nil] at ht
          obtain ⟨r, hr⟩ := hlistOk t ht
          rw [hr] at he; cases he
        · intro id' hid hfail
          rw [hcalls] at hid
          simp only [fetched_append, fetched_get, List.mem_append, List.mem_singleton] at hid
          rcases hid with h | h
          · exact (hfetchOk (hstored id' h) hfail).elim
          · subst h; exact ⟨e, rfl⟩
        · intro id' e' ho'
          cases ho'
          refine ⟨by rw [hcalls]; simp, by rw [hcalls]; simp [hrem],
            ⟨s1.dir, s1.outside, ?_⟩, ?_⟩
          · rw [hdown]; simpa using hdl
          · intro k hk
            rw [hcalls] at hk ⊢
            simp only [fetched_append, fetched_get, List.dropLast_concat] at hk ⊢
            have := downloadMessage_stored env (env.os s1.downloads) id s1.dir s1.outside
              (fetched s1.calls) (fetched s1.calls ++ [id]) (by simp)
              (fun x hx => by simp [hx]) k (hstored k hk)
            rw [hdl] at this
            exact this
    · obtain ⟨pages, -, hp⟩ := pageLoop_ok hst1
      obtain ⟨hlistOk, hstored, -⟩ := hinit hp
      have hfin : (o = .finished ∨ ∃ k e, o = .fatalRemove k e) ∧
          ∃ rs : List String, st.calls = st1.calls ++ rs.map Call.remove := by
        rcases hcase with ⟨-, ho, hst⟩ | ⟨-, hsw⟩ | ⟨-, hsw, ho⟩
        · exact ⟨Or.inl ho, [], by simp [hst]⟩
        · exact ⟨Or.inr (sweep_error hsw).2.1, (sweep_calls _ _).2 o st hsw⟩
        · exact ⟨Or.inl ho, (sweep_calls _ _).1 st hsw⟩
      obtain ⟨ho, rs, hcalls⟩ := hfin
      have hreq : requested st.calls = requested st1.calls := by
        rw [hcalls]; simp [requested_map_remove]
      have hfet : fetched st.calls = fetched st1.calls := by
        rcases hcase with ⟨-, -, hst⟩ | ⟨-, hsw⟩ | ⟨-, hsw, -⟩
        · rw [hst]
        · exact (sweep_error hsw).2.2.2.2
        · exact (sweep_ok hsw).2.2.1
      refine ⟨?_, ?_, ?_, ?_⟩
      · intro t e ht he
        rw [hreq] at ht
        obtain ⟨r, hr⟩ := hlistOk t ht
        rw [hr] at he; cases he
      · intro id hid hfail
        rw [hfet] at hid
        exact (hfetchOk (hstored id hid) hfail).elim
      · intro t e ho'
        rcases ho with h | ⟨k, e', h⟩ <;> rw [h] at ho' <;> cases ho'
      · intro id e ho'
        rcases ho with h | ⟨k, e', h⟩ <;> rw [h] at ho' <;> cases ho'

/-- C9, on a listing whose second page cannot be listed (`A` local, `D`
fetched from the first page), and on a service that lacks the message `D`. -/
theorem failure_ends_the_run_witness :
    (∃ st, main (sampleEnv [("", ⟨["A", "D"], "p2"⟩)]) { noFlags with delete := true }
        [("A", sampleFile), ("Z", sampleFile)] 5
          = (.fatalList "p2" "invalid page token", st) ∧
      st.calls = [Call.list "", Call.get "D", Call.list "p2"] ∧
      mapKeys st.dir = ["D", "A", "Z"] ∧
      (sampleEnv [("", ⟨["A", "D"], "p2"⟩)]).list "p2" = .error "invalid page token" ∧
      st.calls.getLast? = some (Call.list "p2") ∧ removed st.calls = [] ∧
      ∀ id ∈ fetched st.calls,
        Stored (sampleEnv [("", ⟨["A", "D"], "p2"⟩)]) st.dir st.outside (fetched st.calls)
          id) ∧
    (∃ st, main (envWithoutMessage [("", ⟨["E", "D", "F"], ""⟩)] "D") noFlags
        [("A", sampleFile)] 5 = (.fatalDownload "D" (.get "notFound"), st) ∧
      st.calls = [Call.list "", Call.get "E", Call.get "D"] ∧
      mapKeys st.dir = ["E", "A"] ∧
      st.calls.getLast? = some (Call.get "D") ∧ removed st.calls = [] ∧
      (∃ d out, downloadMessage (envWithoutMessage [("", ⟨["E", "D", "F"], ""⟩)] "D")
          ((envWithoutMessage [("", ⟨["E", "D", "F"], ""⟩)] "D").os (st.downloads - 1)) "D" d
            out = (some (.get "notFound"), st.dir, st.outside)) ∧
      ∀ id ∈ (fetched st.calls).dropLast,
        Stored (envWithoutMessage [("", ⟨["E", "D", "F"], ""⟩)] "D") st.dir st.outside
          (fetched st.calls) id) :=
  ⟨⟨(main (sampleEnv [("", ⟨["A", "D"], "p2"⟩)]) { noFlags with delete := true }
        [("A", sampleFile), ("Z", sampleFile)] 5).2,
    by decide, by decide, by decide,
    (failure_ends_the_run (sampleEnv [("", ⟨["A", "D"], "p2"⟩)])
      { noFlags with delete := true } [("A", sampleFile), ("Z", sampleFile)] 5
      (.fatalList "p2" "invalid page token") _ (by decide)).2.2.1 "p2" "invalid page token" rfl⟩,
   ⟨(main (envWithoutMessage [("", ⟨["E", "D", "F"], ""⟩)] "D") noFlags
        [("A", sampleFile)] 5).2,
    by decide, by decide, by decide,
    (failure_ends_the_run (envWithoutMessage [("", ⟨["E", "D", "F"], ""⟩)] "D") noFlags
      [("A", sampleFile)] 5 (.fatalDownload "D" (.get "notFound")) _ (by decide)).2.2.2
        "D" (.get "notFound") rfl⟩⟩

/-- C3 as stated fails: with remote `[A, B, C]` and `B` local, an incremental
run with dry-run on stops at `B` without having fetched `A`, and an
incremental run in which the fetch of `A` fails ends with that error instead
of terminating successfully. -/
theorem incremental_run_need_not_fetch_the_ids_before_the_local_one :
    (main (sampleEnv [("", ⟨["A", "B", "C"], ""⟩)])
        { noFlags with incremental := true, dryRun := true } [("B", sampleFile)] 1).1
      = .stoppedEarly ∧
    fetched (main (sampleEnv [("", ⟨["A", "B", "C"], ""⟩)])
        { noFlags with incremental := true, dryRun := true } [("B", sampleFile)] 1).2.calls
      = [] ∧
    (main (envWithoutMessage [("", ⟨["A", "B", "C"], ""⟩)] "A")
        { noFlags with incremental := true } [("B", sampleFile)] 1).1
      = .fatalDownload "A" (.get "notFound") := by
  decide

/-- C3, amended: let the service answer the pages `init` and then `last`, let
`last` list `pre`, then `b`, then `post`, with `b` in the local snapshot and no
identifier of `init` or `pre` in it. An incremental run with dry-run off whose
downloads do not fail ends with the early `return`; it has requested exactly
the identifiers of `init` and `pre`, in listing order, and exactly the pages
`init` and `last`; `remoteMails` holds those identifiers and `b` and nothing
else; `os.Remove` was never called and the snapshot is still in place. -/
theorem incremental_run_stops_at_first_local_id (env : Env) (flags : Flags) (dir : Dir)
    (fuel : Nat) (o : Outcome) (st : State)
    (init : List ListMessagesResponse) (last : ListMessagesResponse)
    (pre : List String) (b : String) (post : List String)
    (hinc : flags.incremental = true) (hdry : flags.dryRun = false)
    (hread : env.readdirErr = none)
    (hpages : leadsTo env.list "" init last)
    (hlast : last.Messages = pre ++ b :: post)
    (hpre : ∀ id ∈ listedIds init ++ pre, id ∉ mapKeys dir)
    (hb : b ∈ mapKeys dir)
    (hfuel : init.length < fuel)
    (hrun : main env flags dir fuel = (o, st))
    (hok : ∀ id e, o ≠ .fatalDownload id e) :
    o = .stoppedEarly ∧
    fetched st.calls = listedIds init ++ pre ∧
    requested st.calls = "" :: init.map (fun r => r.NextPageToken) ∧
    removed st.calls = [] ∧
    (∀ k, k ∈ st.remoteMails ↔ k ∈ listedIds init ++ pre ∨ k = b) ∧
    st.processed = (listedIds init ++ pre).length ∧
    (∀ k ∈ mapKeys dir, k ∈ mapKeys st.dir) := by
  cases hfm : readdir env.readdirErr dir with
  | error e => simp [readdir, hread] at hfm
  | ok fileMap =>
    have hpre' : ∀ id ∈ listedIds init ++ pre, (mapGet fileMap id).isNone = true :=
      fun id hid => (isNone_fileMap_iff hfm id).mpr (hpre id hid)
    have hb' : (mapGet fileMap b).isNone = false := by
      cases hn : (mapGet fileMap b).isNone with
      | false => rfl
      | true => exact absurd hb ((isNone_fileMap_iff hfm b).mp hn)
    rcases pageLoop_stop env hinc init last pre b post hlast hb' fuel ""
        (initState dir) hpages hpre' hfuel with ⟨id, e, st', h⟩ | ⟨s1, hp, hq, h⟩
    · simp only [main, hfm, h, Prod.mk.injEq] at hrun
      exact absurd hrun.1.symm (hok id e)
    · simp only [main, hfm, h, Prod.mk.injEq] at hrun
      obtain ⟨ho, hst⟩ := hrun
      subst ho hst
      refine ⟨rfl, ?_, ?_, ?_, ?_, ?_, ?_⟩
      · show fetched s1.calls = _
        rw [hp.fetchedEq]
        simp only [hdry, Bool.false_eq_true, if_false, initState, fetched_nil, List.nil_append]
        rw [List.filter_eq_self]
        exact hpre'
      · show requested s1.calls = _
        rw [hq]; simp [initState]
      · show removed s1.calls = _
        rw [hp.removedEq]; rfl
      · intro k
        show k ∈ markSeen s1.remoteMails b ↔ _
        rw [mem_markSeen, hp.seen]
        simp [initState]
      · show s1.processed = _
        rw [hp.processed]; simp [initState]
      · intro k hk
        exact hp.keep k hk

/-- C3 amended, at the example of the specification: remote `[A, B, C]` with
`B` local; the run fetches `A` only and never marks `C`. -/
theorem incremental_run_stops_at_first_local_id_witness :
    ∃ st, main (sampleEnv [("", ⟨["A", "B", "C"], ""⟩)]) { noFlags with incremental := true }
        [("B", sampleFile)] 1 = (.stoppedEarly, st) ∧
      "C" ∉ st.remoteMails ∧
      fetched st.calls = listedIds [] ++ ["A"] ∧
      requested st.calls = "" :: ([] : List ListMessagesResponse).map (fun r => r.NextPageToken) ∧
      removed st.calls = [] ∧
      (∀ k, k ∈ st.remoteMails ↔ k ∈ listedIds [] ++ ["A"] ∨ k = "B") ∧
      st.processed = (listedIds [] ++ ["A"]).length ∧
      (∀ k ∈ mapKeys [("B", sampleFile)], k ∈ mapKeys st.dir) :=
  ⟨(main (sampleEnv [("", ⟨["A", "B", "C"], ""⟩)]) { noFlags with incremental := true }
        [("B", sampleFile)] 1).2,
   by decide, by decide,
   (incremental_run_stops_at_first_local_id (sampleEnv [("", ⟨["A", "B", "C"], ""⟩)])
      { noFlags with incremental := true } [("B", sampleFile)] 1 .stoppedEarly _
      [] ⟨["A", "B", "C"], ""⟩ ["A"] "B" ["C"] rfl rfl rfl rfl rfl (by decide) (by decide)
      (by decide) (by decide) (by intro id e h; cases h)).2⟩

/-- C6 as stated fails for an identifier that is not the name of its own final
path: with nothing local and remote `[b/]` the first run stores the message as
the entry `b`; the second run reads the directory, finds no entry `b/` and
fetches the message again. -/
theorem second_run_fetches_again_when_the_path_is_cleaned :
    (main (sampleEnv [("", ⟨["b/"], ""⟩)]) noFlags [] 1).1 = .finished ∧
    mapKeys (main (sampleEnv [("", ⟨["b/"], ""⟩)]) noFlags [] 1).2.dir = ["b"] ∧
    (main (sampleEnv [("", ⟨["b/"], ""⟩)]) noFlags
      (main (sampleEnv [("", ⟨["b/"], ""⟩)]) noFlags [] 1).2.dir 1).1 = .finished ∧
    fetched (main (sampleEnv [("", ⟨["b/"], ""⟩)]) noFlags
      (main (sampleEnv [("", ⟨["b/"], ""⟩)]) noFlags [] 1).2.dir 1).2.calls = ["b/"] := by
  decide

/-- C6, amended: with delete off and dry-run off, for either setting of
incremental, let a first run end without error (at the end of `main` or at the
early `return`), and let every identifier it has seen in the listing be the
name of its own final path (`filepath.Join(outputPath, id)` is the entry `id`).
A second run with the same flags on the directory the first run left, against
the same listing (whatever the operating system does this time), ends without
error as well, requests no message, removes nothing and leaves the directory
equal to what the first run left. -/
theorem second_run_is_idle (env env2 : Env) (flags : Flags) (dir : Dir) (fuel : Nat)
    (o1 : Outcome) (st1 : State)
    (hdel : flags.delete = false) (hdry : flags.dryRun = false)
    (hlist : env2.list = env.list) (hread : env2.readdirErr = none)
    (hrun1 : main env flags dir fuel = (o1, st1))
    (hok1 : o1 = .finished ∨ o1 = .stoppedEarly)
    (hplain : ∀ id ∈ st1.remoteMails, landing env.outputPath id = .entry id) :
    ((main env2 flags st1.dir fuel).1 = .finished ∨
      (main env2 flags st1.dir fuel).1 = .stoppedEarly) ∧
    fetched (main env2 flags st1.dir fuel).2.calls = [] ∧
    removed (main env2 flags st1.dir fuel).2.calls = [] ∧
    (main env2 flags st1.dir fuel).2.dir = st1.dir := by
  rcases main_cases hrun1 with ⟨e, -, ho, -⟩ | ⟨fileMap, hfm, hrest⟩
  · rcases hok1 with h | h <;> rw [h] at ho <;> cases ho
  · -- the first run, as a result of the page loop
    have h1 : (pageLoop env flags fileMap fuel "" (initState dir) = .ok st1 ∨
        pageLoop env flags fileMap fuel "" (initState dir) = .error (.stoppedEarly, st1)) ∧
        ∀ k ∈ st1.remoteMails, k ∈ mapKeys st1.dir := by
      have hprog : ∀ {ids : List String} {s : State},
          Progress env flags fileMap (initState dir) ids s →
          (∀ k ∈ s.remoteMails, k ∈ st1.remoteMails) →
          ∀ k ∈ s.remoteMails, k ∈ mapKeys s.dir := by
        intro ids s hp hsub k hk
        rcases (hp.seen k).mp hk with h | h
        · simp [initState] at h
        · by_cases hloc : (mapGet fileMap k).isNone = true
          · exact hp.got hdry k h hloc k (hplain k (hsub k hk))
          · apply hp.keep
            rw [isNone_fileMap_iff hfm] at hloc
            simpa [initState] using hloc
      rcases hrest with herr | ⟨s, hs, hcase⟩
      · obtain ⟨ids, s1, hp, hlast⟩ := pageLoop_error herr
        have ho : o1 = .stoppedEarly := by
          rcases hok1 with h | h
          · exact absurd h hlast.effects.2.2.2.2.2.2.2.1
          · exact h
        subst ho
        refine ⟨Or.inr herr, ?_⟩
        rcases hlast with ⟨ho, -⟩ | ⟨t, e, ho, -⟩ | ⟨id, hpm⟩
        · cases ho
        · cases ho
        · rcases processMessage_error hpm with ⟨-, -, hloc, hst⟩ | ⟨e, d, _, ho, -⟩
          · subst hst
            intro k hk
            simp only [mem_markSeen] at hk
            rcases hk with hk | hk
            · exact hprog hp (fun k' hk' => by simp [mem_markSeen, hk']) k hk
            · subst hk
              apply hp.keep
              have : ¬ (mapGet fileMap k).isNone = true := by simp [hloc]
              rw [isNone_fileMap_iff hfm] at this
              simpa [initState] using this
          · cases ho
      · rcases hcase with ⟨-, -, hst⟩ | ⟨hd, -⟩ | ⟨hd, -⟩
        · subst hst
          obtain ⟨pages, -, hp⟩ := pageLoop_ok hs
          exact ⟨Or.inl hs, hprog hp (fun _ h => h)⟩
        · rw [hdel] at hd; cases hd
        · rw [hdel] at hd; cases hd
    obtain ⟨hloop1, hpresent⟩ := h1
    -- the second run
    cases hfm2 : readdir env2.readdirErr st1.dir with
    | error e => simp [readdir, hread] at hfm2
    | ok fileMap2 =>
      have hloc2 : ∀ k ∈ st1.remoteMails, (mapGet fileMap2 k).isNone = false := by
        intro k hk
        cases hn : (mapGet fileMap2 k).isNone with
        | false => rfl
        | true => exact absurd (hpresent k hk) ((isNone_fileMap_iff hfm2 k).mp hn)
      obtain ⟨sb', hres, hdir, hf, hr⟩ :=
        second_pass hlist fuel "" (initState dir) (initState st1.dir) st1 hloop1 hloc2
      rcases hres with hres | hres
      · have hm : main env2 flags st1.dir fuel = (.finished, sb') := by
          simp only [main, hfm2, hres, hdel, Bool.false_eq_true, if_false]
        rw [hm]
        exact ⟨Or.inl rfl, by rw [hf]; rfl, by rw [hr]; rfl, by rw [hdir]; rfl⟩
      · have hm : main env2 flags st1.dir fuel = (.stoppedEarly, sb') := by
          simp only [main, hfm2, hres]
        rw [hm]
        exact ⟨Or.inr rfl, by rw [hf]; rfl, by rw [hr]; rfl, by rw [hdir]; rfl⟩

/-- C6 amended, on two pages `[A, D]`, `[B, E, D]` with `A` and `Z` local: the
first run fetches `D`, `B`, `E` and `D` again, the second run fetches
nothing. -/
theorem second_run_is_idle_witness :
    ∃ st1, main (sampleEnv twoPages) noFlags [("A", sampleFile), ("Z", sampleFile)] 2
        = (.finished, st1) ∧
      fetched st1.calls = ["D", "B", "E", "D"] ∧
      ((main (sampleEnv twoPages) noFlags st1.dir 2).1 = .finished ∨
        (main (sampleEnv twoPages) noFlags st1.dir 2).1 = .stoppedEarly) ∧
      fetched (main (sampleEnv twoPages) noFlags st1.dir 2).2.calls = [] ∧
      removed (main (sampleEnv twoPages) noFlags st1.dir 2).2.calls = [] ∧
      (main (sampleEnv twoPages) noFlags st1.dir 2).2.dir = st1.dir :=
  ⟨(main (sampleEnv twoPages) noFlags [("A", sampleFile), ("Z", sampleFile)] 2).2,
   by decide, by decide,
   second_run_is_idle (sampleEnv twoPages) (sampleEnv twoPages) noFlags
     [("A", sampleFile), ("Z", sampleFile)] 2 .finished _ rfl rfl rfl rfl (by decide)
     (Or.inl rfl) (by decide)⟩

end Gmbackup
